import Mathlib

/-!
Verification of the Shamir secret-sharing reconstructor in
`src/sssreconstruct.js`.

The JavaScript source is shallowly embedded: BigInt becomes `Int`
(BigInt `/` is truncated division, `Int.tdiv`; BigInt `%` on
non-negative operands is `Nat` mod), `class Fraction` becomes the
structure `Fraction` with a fallible normalizing constructor
`Fraction.make`, thrown exceptions become `Except String`, and every
loop becomes a structural recursion (a fuel parameter is used for the
combination-generator loop, with fuel proven exact).
-/

/-- A parsed share: one `(x, y)` point of the hidden polynomial.
The JS share objects also carry `base`, `raw` and `label` fields, but
those are only used for printing, never by the reconstruction core. -/
structure Share where
  x : Int
  y : Int
deriving Repr, DecidableEq, Inhabited

/-- Default used to totalize list indexing (all actual accesses are
proven in range). -/
def dfltShare : Share := ⟨0, 0⟩

/-- The Euclidean loop inside `bigGcd` (`while (b !== 0n) ...`),
running on the non-negative absolute values.  The structural `fuel`
argument is only there to make the recursion structural; `fuel > b`
always suffices (proven in `bigGcdLoop_eq_gcd`). -/
def bigGcdLoop : Nat → Nat → Nat → Nat
  | 0, a, _ => a
  | fuel + 1, a, b => if b = 0 then a else bigGcdLoop fuel b (a % b)

/-- `bigGcd(a, b)` from the source: Euclid on `bigAbs a`, `bigAbs b`. -/
def bigGcd (a b : Int) : Int := (bigGcdLoop (b.natAbs + 1) a.natAbs b.natAbs : Nat)

theorem bigGcdLoop_eq_gcd : ∀ (fuel a b : Nat), b < fuel → bigGcdLoop fuel a b = Nat.gcd a b := by
  intro fuel
  induction fuel with
  | zero => intro a b h; omega
  | succ f ih =>
    intro a b h
    by_cases hb : b = 0
    · subst hb; simp [bigGcdLoop]
    · have hlt : a % b < b := Nat.mod_lt _ (Nat.pos_of_ne_zero hb)
      have : bigGcdLoop f b (a % b) = Nat.gcd b (a % b) := ih b (a % b) (by omega)
      rw [bigGcdLoop, if_neg hb, this, Nat.gcd_comm b (a % b), ← Nat.gcd_rec b a,
        Nat.gcd_comm b a]

theorem bigGcd_eq (a b : Int) : bigGcd a b = (Int.gcd a b : Int) := by
  unfold bigGcd Int.gcd
  rw [bigGcdLoop_eq_gcd _ _ _ (Nat.lt_succ_self _)]

/-- The `Fraction` class: numerator and denominator.  The constructor
invariant (reduced, positive denominator) is *not* part of the type;
it is proven as `Canon` below. -/
structure Fraction where
  n : Int
  d : Int
deriving Repr, DecidableEq, Inhabited

/-- The `Fraction` constructor: throws on a zero denominator, flips
signs so the denominator is positive, divides by the gcd (BigInt `/`
truncates toward zero, hence `Int.tdiv`). -/
def Fraction.make (n d : Int) : Except String Fraction :=
  if d = 0 then .error "Fraction denominator 0"
  else
    let n2 := if d < 0 then -n else n
    let d2 := if d < 0 then -d else d
    let g := bigGcd n2 d2
    .ok ⟨n2.tdiv g, d2.tdiv g⟩

def Fraction.fromBigInt (x : Int) : Except String Fraction := Fraction.make x 1

def Fraction.add (a o : Fraction) : Except String Fraction :=
  Fraction.make (a.n * o.d + o.n * a.d) (a.d * o.d)

def Fraction.sub (a o : Fraction) : Except String Fraction :=
  Fraction.make (a.n * o.d - o.n * a.d) (a.d * o.d)

def Fraction.mul (a o : Fraction) : Except String Fraction :=
  Fraction.make (a.n * o.n) (a.d * o.d)

def Fraction.div (a o : Fraction) : Except String Fraction :=
  if o.n = 0 then .error "Division by zero fraction"
  else Fraction.make (a.n * o.d) (a.d * o.n)

def Fraction.isInteger (a : Fraction) : Bool := a.d == 1

/-- Canonical-form invariant of the data model: positive denominator,
fraction in lowest terms. -/
def Canon (f : Fraction) : Prop := 0 < f.d ∧ Int.gcd f.n f.d = 1

instance (f : Fraction) : Decidable (Canon f) := by
  unfold Canon; infer_instance

/-- Abstraction of a `Fraction` to the rational number it denotes. -/
def fracVal (f : Fraction) : ℚ := (f.n : ℚ) / (f.d : ℚ)

theorem make_zero_den (n : Int) : Fraction.make n 0 = .error "Fraction denominator 0" := rfl

theorem make_pos_spec {n d : Int} (hd : 0 < d) :
    ∃ f, Fraction.make n d = .ok f ∧ Canon f ∧ fracVal f = (n : ℚ) / (d : ℚ) := by
  have hd0 : d ≠ 0 := ne_of_gt hd
  have hnlt : ¬ d < 0 := by omega
  have hGpos : 0 < Int.gcd n d := Int.gcd_pos_of_ne_zero_right n hd0
  obtain ⟨n0, hn0⟩ : ((Int.gcd n d : Int)) ∣ n := Int.gcd_dvd_left
  obtain ⟨d0, hd0'⟩ : ((Int.gcd n d : Int)) ∣ d := Int.gcd_dvd_right
  have hGne : ((Int.gcd n d : Int)) ≠ 0 := by exact_mod_cast hGpos.ne'
  have htn : n.tdiv (Int.gcd n d : Int) = n0 := by
    nth_rewrite 1 [hn0]
    rw [Int.mul_tdiv_cancel_left _ hGne]
  have htd : d.tdiv (Int.gcd n d : Int) = d0 := by
    nth_rewrite 1 [hd0']
    rw [Int.mul_tdiv_cancel_left _ hGne]
  have hd0pos : 0 < d0 := by
    rcases lt_trichotomy d0 0 with h | h | h
    · exfalso
      have : d < 0 := by
        rw [hd0']
        exact mul_neg_of_pos_of_neg (by exact_mod_cast hGpos) h
      omega
    · exfalso; rw [hd0', h, mul_zero] at hd; omega
    · exact h
  refine ⟨⟨n0, d0⟩, ?_, ⟨hd0pos, ?_⟩, ?_⟩
  · simp only [Fraction.make, if_neg hd0, if_neg hnlt, bigGcd_eq, htn, htd]
  · have hmul : Int.gcd ((Int.gcd n d : Int) * n0) ((Int.gcd n d : Int) * d0) = Int.gcd n d := by
      rw [← hn0, ← hd0']
    rw [Int.gcd_mul_left, Int.natAbs_ofNat] at hmul
    exact Nat.mul_left_cancel hGpos (by rw [hmul, Nat.mul_one])
  · show (n0 : ℚ) / (d0 : ℚ) = (n : ℚ) / (d : ℚ)
    have hd0q : (d0 : ℚ) ≠ 0 := by exact_mod_cast hd0pos.ne'
    have hdq : (d : ℚ) ≠ 0 := by exact_mod_cast hd0
    have en : (n : ℚ) = ((Int.gcd n d : Int) : ℚ) * (n0 : ℚ) := by exact_mod_cast congrArg Int.cast hn0
    have ed : (d : ℚ) = ((Int.gcd n d : Int) : ℚ) * (d0 : ℚ) := by exact_mod_cast congrArg Int.cast hd0'
    rw [div_eq_div_iff hd0q hdq, en, ed]
    ring

theorem make_spec {n d : Int} (hd : d ≠ 0) :
    ∃ f, Fraction.make n d = .ok f ∧ Canon f ∧ fracVal f = (n : ℚ) / (d : ℚ) := by
  rcases lt_or_gt_of_ne hd with hneg | hpos
  · obtain ⟨f, hok, hc, hv⟩ := make_pos_spec (n := -n) (d := -d) (by omega)
    refine ⟨f, ?_, hc, ?_⟩
    · simp only [Fraction.make, if_neg (by omega : ¬ -d = 0),
        if_neg (by omega : ¬ -d < 0), neg_neg] at hok
      simp only [Fraction.make, if_neg hd, if_pos hneg]
      exact hok
    · rw [hv]
      push_cast
      rw [neg_div_neg_eq]
  · exact make_pos_spec hpos

theorem canon_d_ne_zero {f : Fraction} (hf : Canon f) : (f.d : ℚ) ≠ 0 := by
  exact_mod_cast hf.1.ne'

/-- A canonical fraction is determined by the rational it denotes. -/
theorem canon_fracVal_inj {f g : Fraction} (hf : Canon f) (hg : Canon g)
    (h : fracVal f = fracVal g) : f = g := by
  obtain ⟨hfd, hfg⟩ := hf
  obtain ⟨hgd, hgg⟩ := hg
  unfold fracVal at h
  rw [div_eq_div_iff (canon_d_ne_zero ⟨hfd, hfg⟩) (canon_d_ne_zero ⟨hgd, hgg⟩)] at h
  have hcross : f.n * g.d = g.n * f.d := by exact_mod_cast h
  have hco_f : IsCoprime f.n f.d := Int.gcd_eq_one_iff_coprime.mp hfg
  have hco_g : IsCoprime g.n g.d := Int.gcd_eq_one_iff_coprime.mp hgg
  have hdvd1 : f.d ∣ g.d := by
    have h1 : f.d ∣ f.n * g.d := by
      rw [hcross]
      exact dvd_mul_left f.d g.n
    exact hco_f.symm.dvd_of_dvd_mul_left h1
  have hdvd2 : g.d ∣ f.d := by
    have h1 : g.d ∣ g.n * f.d := by
      rw [← hcross]
      exact dvd_mul_left g.d f.n
    exact hco_g.symm.dvd_of_dvd_mul_left h1
  have hdd : f.d = g.d := Int.dvd_antisymm (by omega) (by omega) hdvd1 hdvd2
  have hnn : f.n = g.n := by
    have := hcross
    rw [hdd] at this
    exact mul_right_cancel₀ (by exact_mod_cast hgd.ne') this
  cases f; cases g; simp_all

theorem canon_int {y : Int} : Canon ⟨y, 1⟩ := by
  constructor
  · exact Int.one_pos
  · simp [Int.gcd]

theorem canon_isInteger_iff {f : Fraction} (hf : Canon f) (y : Int) :
    (f.isInteger = true ∧ f.n = y) ↔ fracVal f = (y : ℚ) := by
  constructor
  · rintro ⟨hi, hn⟩
    have hd : f.d = 1 := by simpa [Fraction.isInteger] using hi
    unfold fracVal
    rw [hd, hn]
    simp
  · intro hv
    have : f = ⟨y, 1⟩ := by
      apply canon_fracVal_inj hf canon_int
      rw [hv]
      unfold fracVal
      simp
    rw [this]
    simp [Fraction.isInteger]

theorem make_int_spec (x : Int) : Fraction.make x 1 = .ok ⟨x, 1⟩ := by
  obtain ⟨f, hok, hc, hv⟩ := make_pos_spec (n := x) (d := 1) (by omega)
  rw [hok]
  congr 1
  apply canon_fracVal_inj hc canon_int
  rw [hv]
  unfold fracVal
  simp

theorem fromBigInt_spec (x : Int) : Fraction.fromBigInt x = .ok ⟨x, 1⟩ := make_int_spec x

theorem add_spec {a b : Fraction} (ha : Canon a) (hb : Canon b) :
    ∃ c, a.add b = .ok c ∧ Canon c ∧ fracVal c = fracVal a + fracVal b := by
  have hd : a.d * b.d ≠ 0 := mul_ne_zero ha.1.ne' hb.1.ne'
  obtain ⟨c, hok, hc, hv⟩ := make_spec (n := a.n * b.d + b.n * a.d) hd
  refine ⟨c, hok, hc, ?_⟩
  rw [hv]
  unfold fracVal
  rw [div_add_div _ _ (canon_d_ne_zero ha) (canon_d_ne_zero hb)]
  push_cast
  ring_nf

theorem sub_spec {a b : Fraction} (ha : Canon a) (hb : Canon b) :
    ∃ c, a.sub b = .ok c ∧ Canon c ∧ fracVal c = fracVal a - fracVal b := by
  have hd : a.d * b.d ≠ 0 := mul_ne_zero ha.1.ne' hb.1.ne'
  obtain ⟨c, hok, hc, hv⟩ := make_spec (n := a.n * b.d - b.n * a.d) hd
  refine ⟨c, hok, hc, ?_⟩
  rw [hv]
  unfold fracVal
  rw [div_sub_div _ _ (canon_d_ne_zero ha) (canon_d_ne_zero hb)]
  push_cast
  ring_nf

theorem mul_spec {a b : Fraction} (ha : Canon a) (hb : Canon b) :
    ∃ c, a.mul b = .ok c ∧ Canon c ∧ fracVal c = fracVal a * fracVal b := by
  have hd : a.d * b.d ≠ 0 := mul_ne_zero ha.1.ne' hb.1.ne'
  obtain ⟨c, hok, hc, hv⟩ := make_spec (n := a.n * b.n) hd
  refine ⟨c, hok, hc, ?_⟩
  rw [hv]
  unfold fracVal
  rw [div_mul_div_comm]
  push_cast
  ring_nf

theorem div_spec {a b : Fraction} (ha : Canon a) (hb : Canon b) (hn : b.n ≠ 0) :
    ∃ c, a.div b = .ok c ∧ Canon c ∧ fracVal c = fracVal a / fracVal b := by
  have hd : a.d * b.n ≠ 0 := mul_ne_zero ha.1.ne' hn
  obtain ⟨c, hok, hc, hv⟩ := make_spec (n := a.n * b.d) hd
  refine ⟨c, ?_, hc, ?_⟩
  · unfold Fraction.div
    rw [if_neg hn]
    exact hok
  · rw [hv]
    unfold fracVal
    have h1 := canon_d_ne_zero ha
    have h2 := canon_d_ne_zero hb
    have h3 : (b.n : ℚ) ≠ 0 := by exact_mod_cast hn
    push_cast
    field_simp

/-- A canonical fraction denoting a nonzero rational has a nonzero
numerator (needed to show `Fraction.div` by it succeeds). -/
theorem canon_n_ne_zero {f : Fraction} (h : fracVal f ≠ 0) : f.n ≠ 0 := by
  intro hn
  apply h
  unfold fracVal
  rw [hn]
  simp

theorem except_ok_bind {ε α β : Type} (a : α) (f : α → Except ε β) :
    (Except.ok a >>= f) = f a := rfl

theorem except_error_bind {ε α β : Type} (e : ε) (f : α → Except ε β) :
    ((Except.error e : Except ε α) >>= f) = .error e := rfl

/-- Inner loop of `lagrangeEval` (`for j ... if (i === j) continue`),
building the numerator and denominator products.  The loop body at
query abscissa `xq` multiplies `num` by `Fraction(xq - xj)` and `den`
by `Fraction(xi - xj)`. -/
def lagInnerE (points : List Share) (xq xi : Int) (i : Nat) :
    List Nat → Fraction × Fraction → Except String (Fraction × Fraction)
  | [], nd => .ok nd
  | j :: js, nd =>
    if i = j then lagInnerE points xq xi i js nd
    else do
      let xj := (points.getD j dfltShare).x
      let f1 ← Fraction.make (xq - xj) 1
      let num ← nd.1.mul f1
      let f2 ← Fraction.make (xi - xj) 1
      let den ← nd.2.mul f2
      lagInnerE points xq xi i js (num, den)

/-- Outer loop of `lagrangeEval` (`for i ...`): computes
`Li = num / den` and accumulates `acc + yi * Li`. -/
def lagOuterE (points : List Share) (xq : Int) :
    List Nat → Fraction → Except String Fraction
  | [], acc => .ok acc
  | i :: is2, acc => do
    let xi := (points.getD i dfltShare).x
    let yi := (points.getD i dfltShare).y
    let one1 ← Fraction.make 1 1
    let nd ← lagInnerE points xq xi i (List.range points.length) (one1, one1)
    let li ← nd.1.div nd.2
    let fy ← Fraction.fromBigInt yi
    let t ← fy.mul li
    let acc2 ← acc.add t
    lagOuterE points xq is2 acc2

/-- `lagrangeEval(points, xq)` from the source. -/
def lagrangeEval (points : List Share) (xq : Int) : Except String Fraction := do
  let acc0 ← Fraction.make 0 1
  lagOuterE points xq (List.range points.length) acc0

/-- Inner loop of `lagrangeAtZero`: the numerator factor is
`Fraction(-xj)`. -/
def lagInner0 (points : List Share) (xi : Int) (i : Nat) :
    List Nat → Fraction × Fraction → Except String (Fraction × Fraction)
  | [], nd => .ok nd
  | j :: js, nd =>
    if i = j then lagInner0 points xi i js nd
    else do
      let xj := (points.getD j dfltShare).x
      let f1 ← Fraction.make (-xj) 1
      let num ← nd.1.mul f1
      let f2 ← Fraction.make (xi - xj) 1
      let den ← nd.2.mul f2
      lagInner0 points xi i js (num, den)

/-- Outer loop of `lagrangeAtZero`. -/
def lagOuter0 (points : List Share) :
    List Nat → Fraction → Except String Fraction
  | [], acc => .ok acc
  | i :: is2, acc => do
    let xi := (points.getD i dfltShare).x
    let yi := (points.getD i dfltShare).y
    let one1 ← Fraction.make 1 1
    let nd ← lagInner0 points xi i (List.range points.length) (one1, one1)
    let li ← nd.1.div nd.2
    let fy ← Fraction.fromBigInt yi
    let t ← fy.mul li
    let acc2 ← acc.add t
    lagOuter0 points is2 acc2

/-- `lagrangeAtZero(points)` from the source: exact `f(0)` via the
Lagrange basis. -/
def lagrangeAtZero (points : List Share) : Except String Fraction := do
  let acc0 ← Fraction.make 0 1
  lagOuter0 points (List.range points.length) acc0

theorem lagInner0_eq (points : List Share) (xi : Int) (i : Nat) (js : List Nat)
    (nd : Fraction × Fraction) :
    lagInner0 points xi i js nd = lagInnerE points 0 xi i js nd := by
  induction js generalizing nd with
  | nil => rfl
  | cons j js ih =>
    by_cases hij : i = j
    · simp only [lagInner0, lagInnerE, if_pos hij, ih]
    · simp only [lagInner0, lagInnerE, if_neg hij, zero_sub, ih]

theorem lagOuter0_eq (points : List Share) (is2 : List Nat) (acc : Fraction) :
    lagOuter0 points is2 acc = lagOuterE points 0 is2 acc := by
  induction is2 generalizing acc with
  | nil => rfl
  | cons i is2 ih =>
    simp only [lagOuter0, lagOuterE, lagInner0_eq, ih]

theorem lagrangeAtZero_eq_eval (points : List Share) :
    lagrangeAtZero points = lagrangeEval points 0 := by
  unfold lagrangeAtZero lagrangeEval
  simp only [lagOuter0_eq]

/-- Numerator product of the `i`-th Lagrange basis factor at query
point `xq`, as the rational it denotes. -/
def qTermNum (points : List Share) (xq : ℚ) (i : Nat) (js : List Nat) : ℚ :=
  ((js.filter (fun j => j != i)).map
    (fun j => xq - ((points.getD j dfltShare).x : ℚ))).prod

/-- Denominator product of the `i`-th Lagrange basis factor with
basis abscissa `xi`. -/
def qTermDen (points : List Share) (xi : ℚ) (i : Nat) (js : List Nat) : ℚ :=
  ((js.filter (fun j => j != i)).map
    (fun j => xi - ((points.getD j dfltShare).x : ℚ))).prod

/-- The `i`-th summand `y_i · L_i(xq)` of the Lagrange formula. -/
def qTerm (points : List Share) (xq : ℚ) (i : Nat) : ℚ :=
  ((points.getD i dfltShare).y : ℚ) *
    (qTermNum points xq i (List.range points.length) /
      qTermDen points ((points.getD i dfltShare).x : ℚ) i (List.range points.length))

/-- Reference value of `lagrangeEval points xq` as a rational:
`Σ_i y_i · Π_{j≠i} (xq−x_j) / Π_{j≠i} (x_i−x_j)`. -/
def qLagrange (points : List Share) (xq : ℚ) : ℚ :=
  ((List.range points.length).map (qTerm points xq)).sum

/-- Pairwise distinct `x` coordinates (the non-degeneracy condition). -/
def DistinctX (points : List Share) : Prop := (points.map (fun p => p.x)).Nodup

instance (points : List Share) : Decidable (DistinctX points) := by
  unfold DistinctX; infer_instance

theorem distinctX_ne {points : List Share} (h : DistinctX points) {i j : Nat}
    (hi : i < points.length) (hj : j < points.length) (hij : i ≠ j) :
    (points.getD i dfltShare).x ≠ (points.getD j dfltShare).x := by
  rw [List.getD_eq_getElem points dfltShare hi, List.getD_eq_getElem points dfltShare hj]
  intro hx
  have hmi : i < (points.map (fun p => p.x)).length := by simpa using hi
  have hmj : j < (points.map (fun p => p.x)).length := by simpa using hj
  have : (points.map (fun p => p.x))[i] = (points.map (fun p => p.x))[j] := by
    rw [List.getElem_map, List.getElem_map]
    exact hx
  exact hij (h.getElem_inj_iff.mp this)

theorem lagInnerE_spec (points : List Share) (xq xi : Int) (i : Nat) (js : List Nat) :
    ∀ (a b : Fraction), Canon a → Canon b →
    ∃ num den, lagInnerE points xq xi i js (a, b) = .ok (num, den) ∧ Canon num ∧ Canon den ∧
      fracVal num = fracVal a * qTermNum points (xq : ℚ) i js ∧
      fracVal den = fracVal b * qTermDen points (xi : ℚ) i js := by
  induction js with
  | nil =>
    intro a b ha hb
    exact ⟨a, b, rfl, ha, hb, by simp [qTermNum], by simp [qTermDen]⟩
  | cons j js ih =>
    intro a b ha hb
    by_cases hij : i = j
    · obtain ⟨num, den, hok, hcn, hcd, hvn, hvd⟩ := ih a b ha hb
      refine ⟨num, den, ?_, hcn, hcd, ?_, ?_⟩
      · rw [lagInnerE, if_pos hij]
        exact hok
      · rw [hvn]
        have heq : (j != i) = false := by simp [hij.symm]
        simp [qTermNum, List.filter_cons, heq]
      · rw [hvd]
        have heq : (j != i) = false := by simp [hij.symm]
        simp [qTermDen, List.filter_cons, heq]
    · have hf1 := make_int_spec (xq - (points.getD j dfltShare).x)
      have hf2 := make_int_spec (xi - (points.getD j dfltShare).x)
      obtain ⟨num1, hok1, hc1, hv1⟩ := mul_spec ha (canon_int (y := xq - (points.getD j dfltShare).x))
      obtain ⟨den1, hok2, hc2, hv2⟩ := mul_spec hb (canon_int (y := xi - (points.getD j dfltShare).x))
      obtain ⟨num, den, hok, hcn, hcd, hvn, hvd⟩ := ih num1 den1 hc1 hc2
      refine ⟨num, den, ?_, hcn, hcd, ?_, ?_⟩
      · simp only [lagInnerE, if_neg hij]
        rw [hf1, except_ok_bind, hok1, except_ok_bind, hf2, except_ok_bind, hok2,
          except_ok_bind]
        exact hok
      · rw [hvn, hv1]
        have hji : (j != i) = true := by simp; omega
        simp only [qTermNum, List.filter_cons, hji, if_true, List.map_cons, List.prod_cons]
        unfold fracVal
        push_cast
        ring
      · rw [hvd, hv2]
        have hji : (j != i) = true := by simp; omega
        simp only [qTermDen, List.filter_cons, hji, if_true, List.map_cons, List.prod_cons]
        unfold fracVal
        push_cast
        ring

theorem qTermDen_ne_zero {points : List Share} (h : DistinctX points) {i : Nat}
    (hi : i < points.length) :
    qTermDen points ((points.getD i dfltShare).x : ℚ) i (List.range points.length) ≠ 0 := by
  unfold qTermDen
  apply List.prod_ne_zero
  intro hmem
  rw [List.mem_map] at hmem
  obtain ⟨j, hjmem, hje⟩ := hmem
  rw [List.mem_filter, List.mem_range] at hjmem
  obtain ⟨hjlt, hjne⟩ := hjmem
  have hji : j ≠ i := by simpa using hjne
  have hne : (points.getD i dfltShare).x ≠ (points.getD j dfltShare).x :=
    distinctX_ne h hi hjlt hji.symm
  apply hne
  have := sub_eq_zero.mp hje
  exact_mod_cast this

theorem lagOuterE_spec (points : List Share) (xq : Int) (h : DistinctX points)
    (is2 : List Nat) :
    ∀ (acc : Fraction), (∀ i ∈ is2, i < points.length) → Canon acc →
    ∃ f, lagOuterE points xq is2 acc = .ok f ∧ Canon f ∧
      fracVal f = fracVal acc + (is2.map (qTerm points (xq : ℚ))).sum := by
  induction is2 with
  | nil =>
    intro acc _ hacc
    exact ⟨acc, rfl, hacc, by simp⟩
  | cons i is2 ih =>
    intro acc hmem hacc
    have hi : i < points.length := hmem i (by simp)
    obtain ⟨num, den, hok, hcn, hcd, hvn, hvd⟩ :=
      lagInnerE_spec points xq (points.getD i dfltShare).x i (List.range points.length)
        ⟨1, 1⟩ ⟨1, 1⟩ canon_int canon_int
    have hvn1 : fracVal num = qTermNum points (xq : ℚ) i (List.range points.length) := by
      rw [hvn]; unfold fracVal; simp
    have hvd1 : fracVal den =
        qTermDen points ((points.getD i dfltShare).x : ℚ) i (List.range points.length) := by
      rw [hvd]; unfold fracVal; simp
    have hdenz : fracVal den ≠ 0 := by
      rw [hvd1]; exact qTermDen_ne_zero h hi
    obtain ⟨li, hokli, hcli, hvli⟩ := div_spec hcn hcd (canon_n_ne_zero hdenz)
    obtain ⟨t, hokt, hct, hvt⟩ := mul_spec (canon_int (y := (points.getD i dfltShare).y)) hcli
    obtain ⟨acc2, hokacc, hcacc, hvacc⟩ := add_spec hacc hct
    obtain ⟨f, hokf, hcf, hvf⟩ := ih acc2 (fun j hj => hmem j (by simp [hj])) hcacc
    refine ⟨f, ?_, hcf, ?_⟩
    · rw [lagOuterE]
      rw [make_int_spec, except_ok_bind, hok, except_ok_bind, hokli, except_ok_bind,
        fromBigInt_spec, except_ok_bind, hokt, except_ok_bind, hokacc, except_ok_bind]
      exact hokf
    · rw [hvf, hvacc, hvt, hvli, hvn1, hvd1]
      have : fracVal ⟨(points.getD i dfltShare).y, 1⟩ = ((points.getD i dfltShare).y : ℚ) := by
        unfold fracVal; simp
      rw [this]
      simp only [List.map_cons, List.sum_cons]
      unfold qTerm
      ring

/-- On a subset with pairwise distinct `x`, `lagrangeEval` succeeds,
returns a canonical fraction, and denotes the Lagrange sum. -/
theorem lagrangeEval_spec (points : List Share) (xq : Int) (h : DistinctX points) :
    ∃ f, lagrangeEval points xq = .ok f ∧ Canon f ∧
      fracVal f = qLagrange points (xq : ℚ) := by
  obtain ⟨f, hok, hc, hv⟩ :=
    lagOuterE_spec points xq h (List.range points.length) ⟨0, 1⟩
      (fun i hi => List.mem_range.mp hi) canon_int
  refine ⟨f, ?_, hc, ?_⟩
  · unfold lagrangeEval
    rw [make_int_spec, except_ok_bind]
    exact hok
  · rw [hv]
    unfold qLagrange fracVal
    simp

theorem lagrangeAtZero_spec (points : List Share) (h : DistinctX points) :
    ∃ f, lagrangeAtZero points = .ok f ∧ Canon f ∧ fracVal f = qLagrange points 0 := by
  obtain ⟨f, hok, hc, hv⟩ := lagrangeEval_spec points 0 h
  refine ⟨f, ?_, hc, ?_⟩
  · rw [lagrangeAtZero_eq_eval]
    exact hok
  · rw [hv]
    norm_num

/-- `x` coordinate of the `i`-th point, as a rational. -/
def nodeX (points : List Share) (i : Nat) : ℚ := ((points.getD i dfltShare).x : ℚ)

/-- `y` coordinate of the `i`-th point, as a rational. -/
def nodeY (points : List Share) (i : Nat) : ℚ := ((points.getD i dfltShare).y : ℚ)

theorem distinct_injOn {points : List Share} (h : DistinctX points) :
    Set.InjOn (nodeX points) ↑(Finset.range points.length) := by
  intro i hi j hj hx
  rw [Finset.coe_range, Set.mem_Iio] at hi hj
  by_contra hij
  apply distinctX_ne h hi hj hij
  unfold nodeX at hx
  exact_mod_cast hx

theorem list_range_sum (f : ℕ → ℚ) (n : ℕ) :
    ((List.range n).map f).sum = ∑ i ∈ Finset.range n, f i := by
  induction n with
  | zero => simp
  | succ m ih => rw [List.range_succ, Finset.sum_range_succ, List.map_append, List.sum_append, ih]; simp

theorem list_range_prod (f : ℕ → ℚ) (n : ℕ) :
    ((List.range n).map f).prod = ∏ i ∈ Finset.range n, f i := by
  induction n with
  | zero => simp
  | succ m ih => rw [List.range_succ, Finset.prod_range_succ, List.map_append, List.prod_append, ih]; simp

theorem filter_map_prod_if (i : Nat) (g : ℕ → ℚ) (l : List ℕ) :
    ((l.filter (fun j => j != i)).map g).prod =
      (l.map (fun j => if j = i then 1 else g j)).prod := by
  induction l with
  | nil => simp
  | cons a l ih =>
    by_cases ha : a = i
    · simp [List.filter_cons, ha, ih]
    · simp [List.filter_cons, ha, ih]

theorem filtered_range_prod (i n : Nat) (g : ℕ → ℚ) :
    (((List.range n).filter (fun j => j != i)).map g).prod =
      ∏ j ∈ (Finset.range n).erase i, g j := by
  rw [filter_map_prod_if, list_range_prod, ← Finset.filter_ne' (Finset.range n) i,
    Finset.prod_filter]
  apply Finset.prod_congr rfl
  intro j _
  by_cases hj : j = i <;> simp [hj]

/-- `qLagrange` is the evaluation of Mathlib's Lagrange interpolation
polynomial through the points. -/
theorem qLagrange_eq_interp (points : List Share) (xq : ℚ) :
    qLagrange points xq =
      Polynomial.eval xq
        (Lagrange.interpolate (Finset.range points.length) (nodeX points) (nodeY points)) := by
  rw [Lagrange.interpolate_apply, Polynomial.eval_finset_sum]
  unfold qLagrange
  rw [list_range_sum]
  apply Finset.sum_congr rfl
  intro i _
  rw [Polynomial.eval_mul, Polynomial.eval_C]
  unfold qTerm qTermNum qTermDen
  rw [filtered_range_prod, filtered_range_prod]
  unfold Lagrange.basis
  rw [Polynomial.eval_prod]
  show nodeY points i * (_ / _) = nodeY points i * _
  congr 1
  rw [div_eq_mul_inv, ← Finset.prod_inv_distrib, ← Finset.prod_mul_distrib]
  apply Finset.prod_congr rfl
  intro j _
  rw [Lagrange.basisDivisor, Polynomial.eval_mul, Polynomial.eval_C, Polynomial.eval_sub,
    Polynomial.eval_X, Polynomial.eval_C]
  rw [mul_comm]
  rfl

/-- Every basis point lies on its own interpolation: `L(x_i) = y_i`. -/
theorem qLagrange_at_mem {points : List Share} (h : DistinctX points) {p : Share}
    (hp : p ∈ points) : qLagrange points (p.x : ℚ) = (p.y : ℚ) := by
  obtain ⟨i, hi, hget⟩ := List.getElem_of_mem hp
  rw [qLagrange_eq_interp points]
  have hx : (p.x : ℚ) = nodeX points i := by
    rw [nodeX, List.getD_eq_getElem _ _ hi, hget]
  rw [hx, Lagrange.eval_interpolate_at_node (nodeY points) (distinct_injOn h)
    (Finset.mem_range.mpr hi)]
  rw [nodeY, List.getD_eq_getElem _ _ hi, hget]

/-- The Lagrange value function is (the evaluation of) a polynomial of
degree below the number of points. -/
theorem qLagrange_is_poly (points : List Share) (h : DistinctX points) :
    ∃ q : Polynomial ℚ, q.degree < (points.length : ℕ) ∧
      ∀ xq : ℚ, qLagrange points xq = q.eval xq := by
  refine ⟨Lagrange.interpolate (Finset.range points.length) (nodeX points) (nodeY points),
    ?_, fun xq => qLagrange_eq_interp points xq⟩
  have := Lagrange.degree_interpolate_lt (r := nodeY points) (distinct_injOn h)
  simpa using this

/-- If all the points lie on a polynomial `P` of degree `< k` then the
interpolation of any `k` of them reproduces `P` everywhere. -/
theorem qLagrange_of_on_poly {points : List Share} (h : DistinctX points)
    (P : Polynomial ℚ) (hdeg : P.degree < (points.length : ℕ))
    (hon : ∀ p ∈ points, P.eval (p.x : ℚ) = (p.y : ℚ)) (xq : ℚ) :
    qLagrange points xq = P.eval xq := by
  rw [qLagrange_eq_interp points]
  have hP :
      P = Lagrange.interpolate (Finset.range points.length) (nodeX points) (nodeY points) := by
    apply Lagrange.eq_interpolate_of_eval_eq (nodeY points) (distinct_injOn h)
      (by simpa using hdeg)
    intro i hi
    have hi' := Finset.mem_range.mp hi
    have hmem : points.getD i dfltShare ∈ points := by
      rw [List.getD_eq_getElem _ _ hi']
      exact List.getElem_mem hi'
    unfold nodeX nodeY
    exact hon _ hmem
  rw [← hP]

/-- One step of the `combinations` generator: find the rightmost
position whose index is not at its maximum (`idx[p] === p + n - k`),
increment it and reset the following positions to consecutive values
(`idx[j] = idx[j-1] + 1`).  Returns `none` when the final combination
has been reached (`p < 0` in the source).  The recursion tries the
tail first, which is exactly the right-to-left scan of the source. -/
def comboNextAux (n : Nat) : List Nat → Option (List Nat)
  | [] => none
  | a :: rest =>
    match comboNextAux n rest with
    | some rest2 => some (a :: rest2)
    | none =>
      if a + rest.length + 1 = n then none
      else some (List.range' (a + 1) (rest.length + 1))

/-- The generator loop: yield the current index vector, then step.
`fuel` bounds the number of yields; `Nat.choose n k` is proven to be
exactly enough (`combinationsIdx_eq_subseqsLen`). -/
def comboRun (n : Nat) : Nat → List Nat → List (List Nat)
  | 0, _ => []
  | fuel + 1, idx =>
    idx :: (match comboNextAux n idx with
      | none => []
      | some idx2 => comboRun n fuel idx2)

/-- All size-`k` index combinations of `0..n-1` in generator order,
starting from `[0, 1, ..., k-1]`; empty when `k > n` (the generator's
early `return`). -/
def combinationsIdx (n k : Nat) : List (List Nat) :=
  if k > n then [] else comboRun n (Nat.choose n k) (List.range k)

/-- `combinations(arr, k)` from the source: each yielded subset is
`idx.map(i => arr[i])`. -/
def combinations {α : Type} (arr : List α) (k : Nat) : List (List α) :=
  (combinationsIdx arr.length k).map (fun idx => idx.filterMap (fun i => arr[i]?))

/-- Reference description of the generator output: all length-`k`
sublists, in lexicographic order of positions. -/
def subseqsLen {α : Type} : Nat → List α → List (List α)
  | 0, _ => [[]]
  | _ + 1, [] => []
  | k + 1, a :: l => ((subseqsLen k l).map (fun t => a :: t)) ++ subseqsLen (k + 1) l

theorem comboNextAux_length (n : Nat) :
    ∀ (idx idx2 : List Nat), comboNextAux n idx = some idx2 → idx2.length = idx.length := by
  intro idx
  induction idx with
  | nil => intro idx2 h; simp [comboNextAux] at h
  | cons a rest ih =>
    intro idx2 h
    rw [comboNextAux] at h
    cases hr : comboNextAux n rest with
    | some rest2 =>
      rw [hr] at h
      simp at h
      rw [← h]
      simp [ih rest2 hr]
    | none =>
      rw [hr] at h
      by_cases hm : a + rest.length + 1 = n
      · simp [hm] at h
      · simp [hm] at h
        rw [← h]
        simp

theorem comboRun_succ_none {n : Nat} {idx : List Nat} (f : Nat)
    (h : comboNextAux n idx = none) : comboRun n (f + 1) idx = [idx] := by
  rw [comboRun, h]

theorem comboRun_succ_some {n : Nat} {idx idx2 : List Nat} (f : Nat)
    (h : comboNextAux n idx = some idx2) :
    comboRun n (f + 1) idx = idx :: comboRun n f idx2 := by
  rw [comboRun, h]

/-- How the generator run on `a :: rest` decomposes: it first yields
`a` consed onto the run of the tail state, and when the tail state is
exhausted it restarts from the reset state `a+1, a+2, ...` (unless
`a` itself is maximal). -/
theorem comboRun_cons (n : Nat) :
    ∀ (fuel : Nat) (a : Nat) (rest : List Nat),
    comboRun n fuel (a :: rest) =
      ((comboRun n fuel rest).map (fun t => a :: t)) ++
      (if (comboRun n fuel rest).length < fuel ∧ a + rest.length + 1 ≠ n
       then comboRun n (fuel - (comboRun n fuel rest).length)
         (List.range' (a + 1) (rest.length + 1))
       else []) := by
  intro fuel
  induction fuel with
  | zero =>
    intro a rest
    simp [comboRun]
  | succ f ih =>
    intro a rest
    cases hr : comboNextAux n rest with
    | none =>
      have hrest : comboRun n (f + 1) rest = [rest] := comboRun_succ_none f hr
      by_cases hmax : a + rest.length + 1 = n
      · have hnext : comboNextAux n (a :: rest) = none := by
          rw [comboNextAux, hr]
          simp [hmax]
        rw [comboRun_succ_none f hnext, hrest]
        simp [hmax]
      · have hnext : comboNextAux n (a :: rest) =
            some (List.range' (a + 1) (rest.length + 1)) := by
          rw [comboNextAux, hr]
          simp [hmax]
        rw [comboRun_succ_some f hnext, hrest]
        cases f with
        | zero => simp [comboRun]
        | succ f2 =>
          have hcond : ([rest].length < f2 + 1 + 1 ∧ a + rest.length + 1 ≠ n) :=
            ⟨by simp only [List.length_singleton]; omega, hmax⟩
          rw [if_pos hcond]
          simp
    | some rest2 =>
      have hlen : rest2.length = rest.length := comboNextAux_length n rest rest2 hr
      have hrest : comboRun n (f + 1) rest = rest :: comboRun n f rest2 :=
        comboRun_succ_some f hr
      have hnext : comboNextAux n (a :: rest) = some (a :: rest2) := by
        rw [comboNextAux, hr]
      rw [comboRun_succ_some f hnext, hrest, ih a rest2, hlen]
      simp only [List.map_cons, List.length_cons, List.cons_append]
      congr 1
      have hc : ((comboRun n f rest2).length < f ∧ a + rest.length + 1 ≠ n) ↔
          ((comboRun n f rest2).length + 1 < f + 1 ∧ a + rest.length + 1 ≠ n) := by
        constructor
        · intro h2
          exact ⟨by omega, h2.2⟩
        · intro h2
          exact ⟨by omega, h2.2⟩
      have harith : f + 1 - ((comboRun n f rest2).length + 1) =
          f - (comboRun n f rest2).length := by omega
      rw [harith, if_congr hc rfl rfl]

theorem subseqsLen_length {α : Type} : ∀ (k : Nat) (l : List α),
    (subseqsLen k l).length = Nat.choose l.length k
  | 0, _ => by simp [subseqsLen]
  | k + 1, [] => by simp [subseqsLen]
  | k + 1, a :: l => by
    rw [subseqsLen, List.length_append, List.length_map, subseqsLen_length k l,
      subseqsLen_length (k + 1) l, List.length_cons, Nat.choose_succ_succ]

theorem subseqsLen_nil_of_lt {α : Type} : ∀ (k : Nat) (l : List α),
    l.length < k → subseqsLen k l = []
  | 0, _, h => by omega
  | k + 1, [], _ => by rw [subseqsLen]
  | k + 1, a :: l, h => by
    rw [subseqsLen, subseqsLen_nil_of_lt k l (by simpa using h),
      subseqsLen_nil_of_lt (k + 1) l (by simp at h; omega)]
    simp

/-- Main generator correctness: started from `[s, s+1, ..., s+k-1]`
with fuel `C(c, k)` (`c` items available), the run enumerates exactly
the lexicographic list of `k`-sublists of `[s, ..., s+c-1]`. -/
theorem comboRun_start (n : Nat) :
    ∀ (c k s fuel : Nat), k ≤ c → s + c = n → Nat.choose c k ≤ fuel →
    comboRun n fuel (List.range' s k) = subseqsLen k (List.range' s c) := by
  intro c
  induction c with
  | zero =>
    intro k s fuel hk hs hfuel
    have hk0 : k = 0 := by omega
    subst hk0
    obtain ⟨f, rfl⟩ : ∃ f, fuel = f + 1 := ⟨fuel - 1, by simp [Nat.choose] at hfuel; omega⟩
    rw [show List.range' s 0 = [] from rfl,
      @comboRun_succ_none n ([] : List Nat) f rfl]
    rfl
  | succ c ih =>
    intro k s fuel hk hs hfuel
    cases k with
    | zero =>
      obtain ⟨f, rfl⟩ : ∃ f, fuel = f + 1 := ⟨fuel - 1, by simp [Nat.choose] at hfuel; omega⟩
      rw [show List.range' s 0 = [] from rfl,
        @comboRun_succ_none n ([] : List Nat) f rfl]
      rfl
    | succ k2 =>
      have hrange : List.range' s (k2 + 1) = s :: List.range' (s + 1) k2 :=
        List.range'_succ s k2 1
      rw [hrange, comboRun_cons]
      have hlenr : (List.range' (s + 1) k2).length = k2 := List.length_range' _ _ _
      have hchoose : Nat.choose (c + 1) (k2 + 1) = Nat.choose c k2 + Nat.choose c (k2 + 1) :=
        Nat.choose_succ_succ c k2
      have hihfuel : Nat.choose c k2 ≤ fuel := by
        have := Nat.choose_succ_succ c k2
        omega
      have hR : comboRun n fuel (List.range' (s + 1) k2) =
          subseqsLen k2 (List.range' (s + 1) c) :=
        ih k2 (s + 1) fuel (by omega) (by omega) hihfuel
      have hRlen : (comboRun n fuel (List.range' (s + 1) k2)).length = Nat.choose c k2 := by
        rw [hR, subseqsLen_length, List.length_range']
      by_cases hfull : k2 = c
      · have hcond : ¬ ((comboRun n fuel (List.range' (s + 1) k2)).length < fuel ∧
            s + (List.range' (s + 1) k2).length + 1 ≠ n) := by
          rw [hlenr]
          intro hcon
          exact hcon.2 (by omega)
        rw [if_neg hcond, hR, List.append_nil, hfull]
        rw [List.range'_succ s c 1, subseqsLen]
        rw [subseqsLen_nil_of_lt (c + 1) (List.range' (s + 1) c)
          (by rw [List.length_range']; omega)]
        rw [List.append_nil]
      · have hk2c : k2 + 1 ≤ c := by omega
        have hposc : 0 < Nat.choose c (k2 + 1) := Nat.choose_pos hk2c
        have hcond : ((comboRun n fuel (List.range' (s + 1) k2)).length < fuel ∧
            s + (List.range' (s + 1) k2).length + 1 ≠ n) := by
          constructor
          · rw [hRlen]; omega
          · rw [hlenr]; omega
        rw [if_pos hcond, hRlen, hlenr, hR]
        have hT : comboRun n (fuel - Nat.choose c k2) (List.range' (s + 1) (k2 + 1)) =
            subseqsLen (k2 + 1) (List.range' (s + 1) c) :=
          ih (k2 + 1) (s + 1) (fuel - Nat.choose c k2) hk2c (by omega) (by omega)
        rw [hT, List.range'_succ s c 1, subseqsLen]

/-- The generator output (at index level) is exactly the lex list of
`k`-sublists of `range n` — in particular the fuel `C(n,k)` is exact. -/
theorem combinationsIdx_eq_subseqsLen (n k : Nat) :
    combinationsIdx n k = subseqsLen k (List.range n) := by
  unfold combinationsIdx
  by_cases h : k > n
  · rw [if_pos h, subseqsLen_nil_of_lt k (List.range n) (by simpa using h)]
  · rw [if_neg h, List.range_eq_range', List.range_eq_range']
    exact comboRun_start n n k 0 (Nat.choose n k) (by omega) (by omega) le_rfl

theorem subseqsLen_mem {α : Type} : ∀ (k : Nat) (l : List α) (s : List α),
    s ∈ subseqsLen k l → s.length = k ∧ s.Sublist l
  | 0, l, s => by
    intro hs
    simp only [subseqsLen, List.mem_singleton] at hs
    subst hs
    exact ⟨rfl, List.nil_sublist l⟩
  | k + 1, [], s => by
    intro hs
    simp [subseqsLen] at hs
  | k + 1, a :: l, s => by
    intro hs
    rw [subseqsLen, List.mem_append] at hs
    rcases hs with hs | hs
    · rw [List.mem_map] at hs
      obtain ⟨t, ht, rfl⟩ := hs
      obtain ⟨hlen, hsub⟩ := subseqsLen_mem k l t ht
      exact ⟨by simp [hlen], List.Sublist.cons₂ a hsub⟩
    · obtain ⟨hlen, hsub⟩ := subseqsLen_mem (k + 1) l s hs
      exact ⟨hlen, hsub.trans (List.sublist_cons_self a l)⟩

theorem lex_irrefl : ∀ (s : List Nat), ¬ List.Lex (· < ·) s s := by
  intro s
  induction s with
  | nil => intro h; cases h
  | cons a t ih =>
    intro h
    cases h with
    | cons h2 => exact ih h2
    | rel h2 => omega

/-- The generator's output is strictly increasing in the lexicographic
order on index lists (hence: lexicographic order, no duplicates). -/
theorem subseqsLen_pairwise_lex : ∀ (k : Nat) (l : List Nat), l.Pairwise (· < ·) →
    (subseqsLen k l).Pairwise (List.Lex (· < ·))
  | 0, l => by
    intro _
    simp [subseqsLen]
  | k + 1, [] => by
    intro _
    simp [subseqsLen]
  | k + 1, a :: l => by
    intro hl
    have hl' : l.Pairwise (· < ·) := hl.of_cons
    have hal : ∀ b ∈ l, a < b := by
      intro b hb
      exact (List.pairwise_cons.mp hl).1 b hb
    rw [subseqsLen, List.pairwise_append]
    refine ⟨?_, subseqsLen_pairwise_lex (k + 1) l hl', ?_⟩
    · rw [List.pairwise_map]
      apply (subseqsLen_pairwise_lex k l hl').imp
      intro s t hst
      exact List.Lex.cons hst
    · intro u hu v hv
      rw [List.mem_map] at hu
      obtain ⟨t, _, rfl⟩ := hu
      obtain ⟨hvlen, hvsub⟩ := subseqsLen_mem (k + 1) l v hv
      cases v with
      | nil => simp at hvlen
      | cons b v2 =>
        have hb : b ∈ l := hvsub.subset (by simp)
        exact List.Lex.rel (hal b hb)

theorem subseqsLen_nodup (k : Nat) (l : List Nat) (hl : l.Pairwise (· < ·)) :
    (subseqsLen k l).Nodup := by
  apply List.Pairwise.imp ?_ (subseqsLen_pairwise_lex k l hl)
  intro s t hst heq
  subst heq
  exact lex_irrefl s hst

theorem filterMap_get_length {α : Type} (arr : List α) :
    ∀ (idx : List Nat), (∀ i ∈ idx, i < arr.length) →
    (idx.filterMap (fun i => arr[i]?)).length = idx.length := by
  intro idx
  induction idx with
  | nil => intro _; rfl
  | cons i idx ih =>
    intro hmem
    have hi : i < arr.length := hmem i (by simp)
    rw [List.filterMap_cons, List.getElem?_eq_getElem hi]
    simp only [List.length_cons]
    rw [ih (fun j hj => hmem j (by simp [hj]))]

theorem filterMap_get_range {α : Type} (arr : List α) :
    (List.range arr.length).filterMap (fun i => arr[i]?) = arr := by
  induction arr using List.reverseRecOn with
  | nil => rfl
  | append_singleton l a ih =>
    rw [List.length_append, List.length_singleton, List.range_succ, List.filterMap_append]
    have h1 : (List.range l.length).filterMap (fun i => (l ++ [a])[i]?) =
        (List.range l.length).filterMap (fun i => l[i]?) := by
      apply List.filterMap_congr
      intro i hi
      rw [List.mem_range] at hi
      exact List.getElem?_append_left hi
    have h2 : ([l.length].filterMap (fun i => (l ++ [a])[i]?)) = [a] := by
      rw [List.filterMap_cons]
      have : (l ++ [a])[l.length]? = some a := by
        rw [List.getElem?_append_right le_rfl]
        simp
      rw [this]
      rfl
    rw [h1, h2, ih]

theorem combinations_mem {α : Type} (arr : List α) (k : Nat) {s : List α}
    (hs : s ∈ combinations arr k) : s.length = k ∧ s.Sublist arr := by
  unfold combinations at hs
  rw [List.mem_map] at hs
  obtain ⟨idx, hidx, rfl⟩ := hs
  rw [combinationsIdx_eq_subseqsLen] at hidx
  obtain ⟨hlen, hsub⟩ := subseqsLen_mem k (List.range arr.length) idx hidx
  constructor
  · rw [filterMap_get_length arr idx
      (fun i hi => List.mem_range.mp (hsub.subset hi)), hlen]
  · have := hsub.filterMap (fun i => arr[i]?)
    rwa [filterMap_get_range] at this

/-- The verification loop of `main`: for every share of the full set,
evaluate the candidate polynomial at its `x` and compare exactly
(`val.isInteger() && val.n === p.y`).  A thrown error here is *not*
caught by the source (the `try` only wraps `lagrangeAtZero`). -/
def computeFits (subset : List Share) : List Share → Except String (List Bool)
  | [] => .ok []
  | p :: ps => do
    let val ← lagrangeEval subset p.x
    let rest ← computeFits subset ps
    .ok ((val.isInteger && val.n == p.y) :: rest)

/-- The mutable `best` object of `main` (`{fitCount: -1, subset: null,
secretFrac: null, fits: null}`); the three `Option` fields are set
together on every update. -/
structure Candidate where
  fitCount : Int
  subset : Option (List Share)
  secretFrac : Option Fraction
  fits : Option (List Bool)
deriving Repr, DecidableEq

def cInit : Candidate := ⟨-1, none, none, none⟩

/-- The subset enumeration loop of `main`: skip a subset with a
duplicated `x` (the `Set` size check), skip when `lagrangeAtZero`
throws (`try/catch` + `continue`), otherwise score the subset against
all shares, keep it when it strictly improves `best.fitCount`, and
break out on a perfect fit. -/
def searchLoop (shares : List Share) : List (List Share) → Candidate → Except String Candidate
  | [], best => .ok best
  | subset :: rest, best =>
    if (subset.map (fun s => s.x)).dedup.length ≠ subset.length then
      searchLoop shares rest best
    else
      match lagrangeAtZero subset with
      | .error _ => searchLoop shares rest best
      | .ok secretFrac =>
        match computeFits subset shares with
        | .error e => .error e
        | .ok fits =>
          let fitCount : Int := (fits.count true : Nat)
          if best.fitCount < fitCount then
            if fitCount = (shares.length : Int) then
              .ok ⟨fitCount, some subset, some secretFrac, some fits⟩
            else
              searchLoop shares rest ⟨fitCount, some subset, some secretFrac, some fits⟩
          else
            searchLoop shares rest best

/-- Typed outcome of `main`'s reconstruction phase (the source signals
these by `console.error` + `process.exit(1)`). -/
inductive RecError
  | invalidThreshold
  | reconstructionFailed
  | uncaught (msg : String)
deriving Repr, DecidableEq

/-- The winning reconstruction result. -/
structure RecResult where
  secretFrac : Fraction
  subset : List Share
  fits : List Bool
  fitCount : Int
deriving Repr, DecidableEq

/-- The reconstruction core of `main` (spec operation `reconstruct`):
validate the threshold, enumerate all size-`k` subsets, and conclude
with the best-supported candidate or `ReconstructionFailed`. -/
def reconstruct (shares : List Share) (k : Int) : Except RecError RecResult :=
  if k < 2 then .error .invalidThreshold
  else if k > (shares.length : Int) then .error .invalidThreshold
  else
    match searchLoop shares (combinations shares k.toNat) cInit with
    | .error e => .error (.uncaught e)
    | .ok best =>
      match best.subset, best.secretFrac, best.fits with
      | some subset, some secretFrac, some fits =>
        .ok ⟨secretFrac, subset, fits, best.fitCount⟩
      | _, _, _ => .error .reconstructionFailed

/-- The duplicate-`x` test of the source (`Set` of the `x` strings,
`BigInt.toString` being injective) detects exactly `¬ DistinctX`. -/
theorem dedup_check_iff (subset : List Share) :
    ((subset.map (fun s => s.x)).dedup.length ≠ subset.length) ↔ ¬ DistinctX subset := by
  unfold DistinctX
  constructor
  · intro h hd
    exact h (by rw [List.Nodup.dedup hd, List.length_map])
  · intro h hc
    apply h
    have hlen : (subset.map (fun s => s.x)).dedup.length =
        (subset.map (fun s => s.x)).length := by
      rw [hc, List.length_map]
    have hsub : (subset.map (fun s => s.x)).dedup.Sublist (subset.map (fun s => s.x)) :=
      List.dedup_sublist _
    have := hsub.eq_of_length hlen
    rw [← this]
    exact List.nodup_dedup _

/-- Whether share `p` fits the polynomial of `subset`, as computed by
the verification loop. -/
def fitB (subset : List Share) (p : Share) : Bool :=
  match lagrangeEval subset p.x with
  | .ok v => v.isInteger && v.n == p.y
  | .error _ => false

theorem computeFits_spec {subset : List Share} (h : DistinctX subset) :
    ∀ l : List Share, computeFits subset l = .ok (l.map (fitB subset)) := by
  intro l
  induction l with
  | nil => rfl
  | cons p ps ih =>
    obtain ⟨v, hok, _, _⟩ := lagrangeEval_spec subset p.x h
    rw [computeFits, hok, except_ok_bind, ih, except_ok_bind]
    have : fitB subset p = (v.isInteger && v.n == p.y) := by
      unfold fitB
      rw [hok]
    rw [List.map_cons, this]

theorem fitB_spec {subset : List Share} (h : DistinctX subset) (p : Share) :
    fitB subset p = true ↔ qLagrange subset (p.x : ℚ) = (p.y : ℚ) := by
  obtain ⟨v, hok, hc, hv⟩ := lagrangeEval_spec subset p.x h
  unfold fitB
  rw [hok]
  rw [Bool.and_eq_true, beq_iff_eq]
  rw [canon_isInteger_iff hc p.y, hv]

theorem fitB_basis {subset : List Share} (h : DistinctX subset) {p : Share}
    (hp : p ∈ subset) : fitB subset p = true :=
  (fitB_spec h p).mpr (qLagrange_at_mem h hp)

theorem count_true_map (f : Share → Bool) (l : List Share) :
    (l.map f).count true = l.countP f := by
  induction l with
  | nil => rfl
  | cons a l ih =>
    rw [List.map_cons, List.count_cons, List.countP_cons, ih]
    cases hfa : f a <;> simp

/-- What it means for `b` to be a candidate recorded from subset `s`. -/
def CandFor (shares : List Share) (s : List Share) (b : Candidate) : Prop :=
  DistinctX s ∧ b.subset = some s ∧
  b.fits = some (shares.map (fitB s)) ∧
  b.fitCount = (((shares.map (fitB s)).count true : Nat) : Int) ∧
  ∃ fr, lagrangeAtZero s = .ok fr ∧ b.secretFrac = some fr

/-- The search loop never throws, only improves the best fit count,
records only non-degenerate subsets drawn from the pool, and settles
on some candidate as soon as any non-degenerate subset is available. -/
theorem searchLoop_spec (shares : List Share) :
    ∀ (pool : List (List Share)) (best : Candidate),
    ∃ b, searchLoop shares pool best = .ok b ∧
      (b = best ∨ ∃ s ∈ pool, CandFor shares s b) ∧
      best.fitCount ≤ b.fitCount ∧
      (((∃ s ∈ pool, DistinctX s) ∨ -1 < best.fitCount) → -1 < b.fitCount) := by
  intro pool
  induction pool with
  | nil =>
    intro best
    refine ⟨best, rfl, Or.inl rfl, le_rfl, ?_⟩
    rintro (⟨s, hs, _⟩ | h)
    · simp at hs
    · exact h
  | cons s pool ih =>
    intro best
    by_cases hdx : DistinctX s
    · have hskip : ¬ ((s.map (fun t => t.x)).dedup.length ≠ s.length) := by
        rw [dedup_check_iff]
        exact not_not_intro hdx
      obtain ⟨fr, hlag, hcfr, hvfr⟩ := lagrangeAtZero_spec s hdx
      have hfits := computeFits_spec hdx shares
      by_cases hcmp : best.fitCount < (((shares.map (fitB s)).count true : Nat) : Int)
      · by_cases hfull :
            ((((shares.map (fitB s)).count true : Nat) : Int) = (shares.length : Int))
        · refine ⟨⟨(((shares.map (fitB s)).count true : Nat) : Int), some s, some fr,
            some (shares.map (fitB s))⟩, ?_, ?_, ?_, ?_⟩
          · rw [searchLoop, if_neg hskip, hlag, hfits]
            simp only [if_pos hcmp, if_pos hfull]
          · exact Or.inr ⟨s, by simp, hdx, rfl, rfl, rfl, fr, hlag, rfl⟩
          · exact le_of_lt hcmp
          · intro _
            show (-1 : Int) < (((shares.map (fitB s)).count true : Nat) : Int)
            have : (0 : Int) ≤ (((shares.map (fitB s)).count true : Nat) : Int) := by positivity
            omega
        · obtain ⟨b, hb, hbor, hble, hbpos⟩ :=
            ih ⟨(((shares.map (fitB s)).count true : Nat) : Int), some s, some fr,
              some (shares.map (fitB s))⟩
          refine ⟨b, ?_, ?_, ?_, ?_⟩
          · rw [searchLoop, if_neg hskip, hlag, hfits]
            simp only [if_pos hcmp, if_neg hfull]
            exact hb
          · rcases hbor with hbeq | ⟨s2, hs2, hc2⟩
            · subst hbeq
              exact Or.inr ⟨s, by simp, hdx, rfl, rfl, rfl, fr, hlag, rfl⟩
            · exact Or.inr ⟨s2, by simp [hs2], hc2⟩
          · have hble2 : (((shares.map (fitB s)).count true : Nat) : Int) ≤ b.fitCount := hble
            have : (0 : Int) ≤ (((shares.map (fitB s)).count true : Nat) : Int) := by positivity
            omega
          · intro _
            apply hbpos
            right
            show (-1 : Int) < (((shares.map (fitB s)).count true : Nat) : Int)
            have : (0 : Int) ≤ (((shares.map (fitB s)).count true : Nat) : Int) := by positivity
            omega
      · obtain ⟨b, hb, hbor, hble, hbpos⟩ := ih best
        refine ⟨b, ?_, ?_, hble, ?_⟩
        · rw [searchLoop, if_neg hskip, hlag, hfits]
          simp only [if_neg hcmp]
          exact hb
        · rcases hbor with hbeq | ⟨s2, hs2, hc2⟩
          · exact Or.inl hbeq
          · exact Or.inr ⟨s2, by simp [hs2], hc2⟩
        · intro _
          apply hbpos
          right
          have : (0 : Int) ≤ (((shares.map (fitB s)).count true : Nat) : Int) := by positivity
          omega
    · have hskip : ((s.map (fun t => t.x)).dedup.length ≠ s.length) := by
        rw [dedup_check_iff]
        exact hdx
      obtain ⟨b, hb, hbor, hble, hbpos⟩ := ih best
      refine ⟨b, ?_, ?_, hble, ?_⟩
      · rw [searchLoop, if_pos hskip]
        exact hb
      · rcases hbor with hbeq | ⟨s2, hs2, hc2⟩
        · exact Or.inl hbeq
        · exact Or.inr ⟨s2, by simp [hs2], hc2⟩
      · rintro (⟨s2, hs2, hdx2⟩ | h)
        · apply hbpos
          rcases List.mem_cons.mp hs2 with rfl | hs2
          · exact absurd hdx2 hdx
          · exact Or.inl ⟨s2, hs2, hdx2⟩
        · exact hbpos (Or.inr h)

/-- Reduction of `reconstruct` past a completed search. -/
theorem reconstruct_conclude {shares : List Share} {k : Int} (h2 : ¬ k < 2)
    (h3 : ¬ k > (shares.length : Int)) (b : Candidate)
    (hb : searchLoop shares (combinations shares k.toNat) cInit = .ok b) :
    reconstruct shares k =
      (match b.subset, b.secretFrac, b.fits with
        | some subset, some secretFrac, some fits =>
          .ok ⟨secretFrac, subset, fits, b.fitCount⟩
        | _, _, _ => .error .reconstructionFailed) := by
  unfold reconstruct
  rw [if_neg h2, if_neg h3, hb]

/-- Anatomy of a successful reconstruction: the threshold was valid
and the result's fields all come from one non-degenerate subset of
the enumeration. -/
theorem reconstruct_ok_elim {shares : List Share} {k : Int} {r : RecResult}
    (h : reconstruct shares k = .ok r) :
    2 ≤ k ∧ k ≤ (shares.length : Int) ∧
    ∃ s, s ∈ combinations shares k.toNat ∧ DistinctX s ∧ r.subset = s ∧
      r.fits = shares.map (fitB s) ∧
      r.fitCount = (((shares.map (fitB s)).count true : Nat) : Int) ∧
      lagrangeAtZero s = .ok r.secretFrac := by
  by_cases h2 : k < 2
  · unfold reconstruct at h
    rw [if_pos h2] at h
    cases h
  by_cases h3 : k > (shares.length : Int)
  · unfold reconstruct at h
    rw [if_neg h2, if_pos h3] at h
    cases h
  refine ⟨by omega, by omega, ?_⟩
  obtain ⟨b, hb, hbor, _, _⟩ := searchLoop_spec shares (combinations shares k.toNat) cInit
  rw [reconstruct_conclude h2 h3 b hb] at h
  rcases hbor with hbeq | ⟨s, hs, hdx, hsub, hfits, hcnt, fr, hlag, hfr⟩
  · subst hbeq
    cases h
  · rw [hsub, hfr, hfits] at h
    simp only [Except.ok.injEq] at h
    subst h
    exact ⟨s, hs, hdx, rfl, rfl, hcnt, hlag⟩

/-- If any enumerated subset is non-degenerate (and the threshold is
valid) the reconstruction succeeds. -/
theorem reconstruct_total {shares : List Share} {k : Int} (h2 : 2 ≤ k)
    (hlen : k ≤ (shares.length : Int))
    (hex : ∃ s ∈ combinations shares k.toNat, DistinctX s) :
    ∃ r, reconstruct shares k = .ok r := by
  obtain ⟨b, hb, hbor, _, hbpos⟩ := searchLoop_spec shares (combinations shares k.toNat) cInit
  rw [reconstruct_conclude (by omega) (by omega) b hb]
  have hpos : -1 < b.fitCount := hbpos (Or.inl hex)
  rcases hbor with hbeq | ⟨s, _, _, hsub, hfits, _, fr, _, hfr⟩
  · subst hbeq
    simp [cInit] at hpos
  · rw [hsub, hfr, hfits]
    exact ⟨_, rfl⟩

/-- Never an uncaught exception: the search loop always returns. -/
theorem reconstruct_no_uncaught (shares : List Share) (k : Int) (msg : String) :
    reconstruct shares k ≠ .error (.uncaught msg) := by
  by_cases h2 : k < 2
  · unfold reconstruct
    rw [if_pos h2]
    intro h
    cases h
  by_cases h3 : k > (shares.length : Int)
  · unfold reconstruct
    rw [if_neg h2, if_pos h3]
    intro h
    cases h
  obtain ⟨b, hb, _, _, _⟩ := searchLoop_spec shares (combinations shares k.toNat) cInit
  rw [reconstruct_conclude h2 h3 b hb]
  rcases b with ⟨bfc, bsub, bsec, bfits⟩
  rcases bsub with _ | s <;> rcases bsec with _ | fr <;> rcases bfits with _ | fits <;> simp

theorem make_ok_canon {n d : Int} {f : Fraction} (h : Fraction.make n d = .ok f) : Canon f := by
  by_cases hd : d = 0
  · subst hd
    rw [make_zero_den] at h
    cases h
  · obtain ⟨f2, hok, hc, _⟩ := make_spec hd
    rw [h] at hok
    cases hok
    exact hc

/-- C4: every `Rational` produced by construction or by the four
arithmetic operations is canonical (`gcd(|n|, d) = 1`, `d > 0`);
`(6, -4)` normalizes to `-3/2`; a zero denominator is rejected. -/
theorem C4_rational_canonicalization :
    (∀ (n d : Int) (f : Fraction), Fraction.make n d = .ok f → Canon f) ∧
    (∀ (a b f : Fraction), a.add b = .ok f → Canon f) ∧
    (∀ (a b f : Fraction), a.sub b = .ok f → Canon f) ∧
    (∀ (a b f : Fraction), a.mul b = .ok f → Canon f) ∧
    (∀ (a b f : Fraction), a.div b = .ok f → Canon f) ∧
    Fraction.make 6 (-4) = .ok ⟨-3, 2⟩ ∧
    (∀ n : Int, Fraction.make n 0 = .error "Fraction denominator 0") := by
  refine ⟨fun n d f h => make_ok_canon h,
    fun a b f h => make_ok_canon h,
    fun a b f h => make_ok_canon h,
    fun a b f h => make_ok_canon h,
    fun a b f h => ?_, rfl, fun n => make_zero_den n⟩
  unfold Fraction.div at h
  by_cases hb : b.n = 0
  · rw [if_pos hb] at h
    cases h
  · rw [if_neg hb] at h
    exact make_ok_canon h

/-- Witness for C4 at concrete inputs. -/
theorem C4_witness :
    (Fraction.make 6 (-4) = .ok ⟨-3, 2⟩ ∧ Canon ⟨-3, 2⟩) ∧
    (Fraction.add ⟨1, 2⟩ ⟨1, 3⟩ = .ok ⟨5, 6⟩ ∧ Canon ⟨5, 6⟩) := by
  refine ⟨⟨rfl, ?_⟩, ⟨rfl, ?_⟩⟩
  · exact C4_rational_canonicalization.1 6 (-4) ⟨-3, 2⟩ rfl
  · exact C4_rational_canonicalization.2.1 ⟨1, 2⟩ ⟨1, 3⟩ ⟨5, 6⟩ rfl

/-- C7: `k < 2` (in particular `k = 1`) or `k` exceeding the number of
shares makes `reconstruct` fail with `InvalidThreshold`. -/
theorem C7_invalid_threshold (shares : List Share) (k : Int)
    (h : k < 2 ∨ (shares.length : Int) < k) :
    reconstruct shares k = .error .invalidThreshold := by
  by_cases h2 : k < 2
  · unfold reconstruct
    rw [if_pos h2]
  · unfold reconstruct
    rw [if_neg h2, if_pos (by omega : k > (shares.length : Int))]

/-- Witness for C7: `k = 1` and `k = 3 >` two shares both fail. -/
theorem C7_witness :
    reconstruct [⟨1, 4⟩, ⟨2, 7⟩] 1 = .error .invalidThreshold ∧
    reconstruct [⟨1, 4⟩, ⟨2, 7⟩] 3 = .error .invalidThreshold :=
  ⟨C7_invalid_threshold _ 1 (Or.inl (by norm_num)),
   C7_invalid_threshold _ 3 (Or.inr (by norm_num))⟩

/-- C8: a subset with a duplicated `x` is skipped (recovered locally,
search continues on the remaining subsets, unchanged `best`), is never
the winning candidate, and the whole call never fails with an
unrecovered (uncaught) error. -/
theorem C8_degenerate_skipped :
    (∀ (shares : List Share) (rest : List (List Share)) (best : Candidate) (s : List Share),
      ¬ DistinctX s → searchLoop shares (s :: rest) best = searchLoop shares rest best) ∧
    (∀ (shares : List Share) (k : Int) (r : RecResult),
      reconstruct shares k = .ok r → DistinctX r.subset) ∧
    (∀ (shares : List Share) (k : Int) (msg : String),
      reconstruct shares k ≠ .error (.uncaught msg)) := by
  refine ⟨?_, ?_, fun shares k msg => reconstruct_no_uncaught shares k msg⟩
  · intro shares rest best s h
    rw [searchLoop, if_pos ((dedup_check_iff s).mpr h)]
  · intro shares k r h
    obtain ⟨_, _, s, _, hdx, hsub, _, _, _⟩ := reconstruct_ok_elim h
    rw [hsub]
    exact hdx

/-- Witness for C8 at a concrete degenerate subset. -/
theorem C8_witness :
    ¬ DistinctX [⟨1, 0⟩, ⟨1, 1⟩] ∧
    searchLoop [⟨1, 0⟩, ⟨1, 1⟩] [[⟨1, 0⟩, ⟨1, 1⟩]] cInit =
      searchLoop [⟨1, 0⟩, ⟨1, 1⟩] [] cInit ∧
    DistinctX [⟨1, 4⟩, ⟨2, 7⟩] := by
  refine ⟨by decide, ?_, ?_⟩
  · exact C8_degenerate_skipped.1 [⟨1, 0⟩, ⟨1, 1⟩] [] cInit [⟨1, 0⟩, ⟨1, 1⟩] (by decide)
  · exact C8_degenerate_skipped.2.1 [⟨1, 4⟩, ⟨2, 7⟩] 2
      ⟨⟨1, 1⟩, [⟨1, 4⟩, ⟨2, 7⟩], [true, true], 2⟩ rfl

/-- C6: `valueAtZero` (exact `f(0)`) is invariant under permutation of
a subset with pairwise distinct `x`, and succeeds on it. -/
theorem C6_order_invariance (pts pts2 : List Share) (hperm : pts.Perm pts2)
    (h : DistinctX pts) :
    lagrangeAtZero pts = lagrangeAtZero pts2 ∧ ∃ f, lagrangeAtZero pts = .ok f := by
  have h2 : DistinctX pts2 := by
    unfold DistinctX at h ⊢
    exact (hperm.map (fun p => p.x)).nodup_iff.mp h
  obtain ⟨f1, hok1, hc1, hv1⟩ := lagrangeAtZero_spec pts h
  obtain ⟨f2, hok2, hc2, hv2⟩ := lagrangeAtZero_spec pts2 h2
  obtain ⟨q, hdeg, hq⟩ := qLagrange_is_poly pts h
  have hlen : pts2.length = pts.length := hperm.length_eq.symm
  have hon : ∀ p ∈ pts2, q.eval (p.x : ℚ) = (p.y : ℚ) := by
    intro p hp
    rw [← hq]
    exact qLagrange_at_mem h (hperm.mem_iff.mpr hp)
  have hval : qLagrange pts2 0 = q.eval 0 :=
    qLagrange_of_on_poly h2 q (by rw [hlen]; exact hdeg) hon 0
  have heq : f1 = f2 := by
    apply canon_fracVal_inj hc1 hc2
    rw [hv1, hv2, hval, hq]
  refine ⟨?_, f1, hok1⟩
  rw [hok1, hok2, heq]

/-- Witness for C6 on a concrete permuted pair. -/
theorem C6_witness :
    [(⟨1, 4⟩ : Share), ⟨2, 7⟩].Perm [⟨2, 7⟩, ⟨1, 4⟩] ∧
    DistinctX [⟨1, 4⟩, ⟨2, 7⟩] ∧
    lagrangeAtZero [⟨1, 4⟩, ⟨2, 7⟩] = lagrangeAtZero [⟨2, 7⟩, ⟨1, 4⟩] := by
  refine ⟨by decide, by decide, ?_⟩
  exact (C6_order_invariance [⟨1, 4⟩, ⟨2, 7⟩] [⟨2, 7⟩, ⟨1, 4⟩] (by decide) (by decide)).1

/-- C9: every basis point evaluates to exactly its own `y` (an
integer-valued canonical `Rational`), and consequently every
successful reconstruction has `fitCount ≥ k`. -/
theorem C9_basis_fit :
    (∀ (subset : List Share) (p : Share), DistinctX subset → p ∈ subset →
      lagrangeEval subset p.x = .ok ⟨p.y, 1⟩) ∧
    (∀ (shares : List Share) (k : Int) (r : RecResult),
      reconstruct shares k = .ok r → k ≤ r.fitCount) := by
  constructor
  · intro subset p h hp
    obtain ⟨v, hok, hc, hv⟩ := lagrangeEval_spec subset p.x h
    have : v = ⟨p.y, 1⟩ := by
      apply canon_fracVal_inj hc canon_int
      rw [hv, qLagrange_at_mem h hp]
      unfold fracVal
      simp
    rw [hok, this]
  · intro shares k r h
    obtain ⟨h2, _, s, hmem, hdx, _, _, hcnt, _⟩ := reconstruct_ok_elim h
    obtain ⟨hslen, hssub⟩ := combinations_mem shares k.toNat hmem
    have hcount : s.countP (fitB s) = s.length := by
      rw [List.countP_eq_length]
      intro p hp
      exact fitB_basis hdx hp
    have hle : s.countP (fitB s) ≤ shares.countP (fitB s) := hssub.countP_le (fitB s)
    have hcnt2 : r.fitCount = ((shares.countP (fitB s) : Nat) : Int) := by
      rw [hcnt, count_true_map]
    rw [hcnt2]
    have : k.toNat ≤ shares.countP (fitB s) := by omega
    omega

/-- Witness for C9 at concrete inputs. -/
theorem C9_witness :
    lagrangeEval [⟨1, 4⟩, ⟨2, 7⟩] 1 = .ok ⟨4, 1⟩ ∧ (2 : Int) ≤ 2 := by
  constructor
  · exact C9_basis_fit.1 [⟨1, 4⟩, ⟨2, 7⟩] ⟨1, 4⟩ (by decide) (by decide)
  · exact C9_basis_fit.2 [⟨1, 4⟩, ⟨2, 7⟩] 2
      ⟨⟨1, 1⟩, [⟨1, 4⟩, ⟨2, 7⟩], [true, true], 2⟩ rfl

/-- C5: for `1 ≤ k ≤ n` the generator yields exactly `C(n,k)` size-`k`
subsequences of the input (each preserving the original relative
order), the underlying index sequences are in strictly increasing
lexicographic order (hence no duplicates); for `k > n` it yields the
empty sequence. -/
theorem C5_combinations {α : Type} (arr : List α) (k : Nat)
    (h1 : 1 ≤ k) (h2 : k ≤ arr.length) :
    (combinations arr k).length = Nat.choose arr.length k ∧
    (∀ s ∈ combinations arr k, s.length = k ∧ s.Sublist arr) ∧
    (combinationsIdx arr.length k).Pairwise (List.Lex (· < ·)) ∧
    (combinationsIdx arr.length k).Nodup ∧
    combinations arr k =
      (combinationsIdx arr.length k).map (fun idx => idx.filterMap (fun i => arr[i]?)) ∧
    (∀ k2, arr.length < k2 → combinations arr k2 = []) := by
  have hrange : (List.range arr.length).Pairwise (· < ·) := List.pairwise_lt_range _
  refine ⟨?_, fun s hs => combinations_mem arr k hs, ?_, ?_, rfl, ?_⟩
  · unfold combinations
    rw [List.length_map, combinationsIdx_eq_subseqsLen, subseqsLen_length, List.length_range]
  · rw [combinationsIdx_eq_subseqsLen]
    exact subseqsLen_pairwise_lex k (List.range arr.length) hrange
  · rw [combinationsIdx_eq_subseqsLen]
    exact subseqsLen_nodup k (List.range arr.length) hrange
  · intro k2 hk2
    unfold combinations combinationsIdx
    rw [if_pos hk2]
    rfl

/-- Witness for C5 on a concrete sequence. -/
theorem C5_witness :
    (1 ≤ 2 ∧ 2 ≤ 3) ∧
    (combinations [10, 20, 30] 2).length = Nat.choose 3 2 ∧
    combinations [10, 20, 30] 2 = [[10, 20], [10, 30], [20, 30]] ∧
    combinations [10, 20, 30] 4 = [] := by
  refine ⟨⟨by norm_num, by norm_num⟩, ?_, by decide, by decide⟩
  exact (C5_combinations [10, 20, 30] 2 (by norm_num) (by norm_num)).1

/-- `kk` shares are mutually consistent when one polynomial of degree
below `kk` passes through all of them. -/
def ConsistentShares (kk : Nat) (l : List Share) : Prop :=
  ∃ q : Polynomial ℚ, q.degree < (kk : ℕ) ∧ ∀ p ∈ l, q.eval (p.x : ℚ) = (p.y : ℚ)

theorem reconstruct_error_elim {shares : List Share} {k : Int} {e : RecError}
    (h2 : 2 ≤ k) (hlen : k ≤ (shares.length : Int))
    (h : reconstruct shares k = .error e) : e = .reconstructionFailed := by
  obtain ⟨b, hb, _, _, _⟩ := searchLoop_spec shares (combinations shares k.toNat) cInit
  rw [reconstruct_conclude (by omega) (by omega) b hb] at h
  rcases b with ⟨bfc, bsub, bsec, bfits⟩
  rcases bsub with _ | s <;> rcases bsec with _ | fr <;> rcases bfits with _ | fits <;>
    simp_all

/-- C3 (amended with a valid threshold): every successful result's
`fitCount` is exactly the number of supplied shares lying on the
winning subset's interpolating polynomial (which has degree `< k`);
and when fewer than `k` mutually consistent shares exist, the call
either fails with `ReconstructionFailed` or reports `fitCount < k`. -/
theorem C3_failure_scenario :
    (∀ (shares : List Share) (k : Int) (r : RecResult), reconstruct shares k = .ok r →
      r.fitCount =
        ((shares.countP (fun p => qLagrange r.subset (p.x : ℚ) == (p.y : ℚ)) : Nat) : Int) ∧
      ∃ q : Polynomial ℚ, q.degree < (r.subset.length : ℕ) ∧
        ∀ xq : ℚ, qLagrange r.subset xq = q.eval xq) ∧
    (∀ (shares : List Share) (k : Int), 2 ≤ k → k ≤ (shares.length : Int) →
      (¬ ∃ sub : List Share, sub.Sublist shares ∧ sub.length = k.toNat ∧
        ConsistentShares k.toNat sub) →
      reconstruct shares k = .error .reconstructionFailed ∨
        ∃ r, reconstruct shares k = .ok r ∧ r.fitCount < k) := by
  constructor
  · intro shares k r h
    obtain ⟨_, _, s, hmem, hdx, hsub, _, hcnt, _⟩ := reconstruct_ok_elim h
    subst hsub
    constructor
    · rw [hcnt, count_true_map]
      congr 1
      apply List.countP_congr
      intro p _
      rw [fitB_spec hdx, beq_iff_eq]
    · exact qLagrange_is_poly r.subset hdx
  · intro shares k h2 hlen hnc
    cases hres : reconstruct shares k with
    | error e =>
      left
      rw [reconstruct_error_elim h2 hlen hres]
    | ok r =>
      right
      refine ⟨r, rfl, ?_⟩
      by_contra hge
      apply hnc
      obtain ⟨_, _, s, hmem, hdx, hsubr, _, hcnt, _⟩ := reconstruct_ok_elim hres
      obtain ⟨hslen, _⟩ := combinations_mem shares k.toNat hmem
      have hcount : k.toNat ≤ shares.countP (fitB s) := by
        rw [hcnt, count_true_map] at hge
        omega
      have hflen : (shares.filter (fitB s)).length = shares.countP (fitB s) :=
        (List.countP_eq_length_filter _ _).symm
      refine ⟨(shares.filter (fitB s)).take k.toNat, ?_, ?_, ?_⟩
      · exact (List.take_sublist _ _).trans (List.filter_sublist _)
      · rw [List.length_take]
        omega
      · obtain ⟨q, hdeg, hq⟩ := qLagrange_is_poly s hdx
        refine ⟨q, by rw [← hslen]; exact hdeg, ?_⟩
        intro p hp
        have hpf : p ∈ shares.filter (fitB s) := List.take_subset _ _ hp
        have hfit : fitB s p = true := (List.mem_filter.mp hpf).2
        rw [← hq, ← (fitB_spec hdx p).mp hfit]

/-- Counterexample for C3 as frozen: with no shares and `k = 2`, fewer
than `k` mutually consistent shares exist, yet the call fails with
`InvalidThreshold`, not `ReconstructionFailed`, and returns no result. -/
theorem C3_counterexample :
    (¬ ∃ sub : List Share, sub.Sublist ([] : List Share) ∧ sub.length = (2 : Int).toNat ∧
      ConsistentShares (2 : Int).toNat sub) ∧
    reconstruct [] 2 = .error .invalidThreshold ∧
    reconstruct [] 2 ≠ .error .reconstructionFailed ∧
    (∀ r : RecResult, reconstruct [] 2 ≠ .ok r) := by
  refine ⟨?_, rfl, ?_, ?_⟩
  · rintro ⟨sub, hsub, hlen, _⟩
    have := hsub.length_le
    simp at this
    rw [this] at hlen
    cases hlen
  · intro h
    cases h
  · intro r h
    cases h

/-- Witness for C3 on two contradictory shares at the same `x`. -/
theorem C3_witness :
    (2 : Int) ≤ 2 ∧ (2 : Int) ≤ (([⟨1, 0⟩, ⟨1, 1⟩] : List Share).length : Int) ∧
    (reconstruct [⟨1, 0⟩, ⟨1, 1⟩] 2 = .error .reconstructionFailed ∨
      ∃ r, reconstruct ([⟨1, 0⟩, ⟨1, 1⟩] : List Share) 2 = .ok r ∧ r.fitCount < 2) ∧
    reconstruct [⟨1, 0⟩, ⟨1, 1⟩] 2 = .error .reconstructionFailed := by
  have hnc : ¬ ∃ sub : List Share, sub.Sublist [⟨1, 0⟩, ⟨1, 1⟩] ∧
      sub.length = (2 : Int).toNat ∧ ConsistentShares (2 : Int).toNat sub := by
    rintro ⟨sub, hsub, hlen, q, _, hon⟩
    have hlen2 : sub.length = ([⟨1, 0⟩, ⟨1, 1⟩] : List Share).length := by
      rw [hlen]
      rfl
    have hsube : sub = [⟨1, 0⟩, ⟨1, 1⟩] := hsub.eq_of_length hlen2
    subst hsube
    have h1 := hon ⟨1, 0⟩ (by simp)
    have h2 := hon ⟨1, 1⟩ (by simp)
    simp only at h1 h2
    rw [h1] at h2
    norm_num at h2
  refine ⟨by norm_num, by norm_num, ?_, rfl⟩
  exact C3_failure_scenario.2 [⟨1, 0⟩, ⟨1, 1⟩] 2 (by norm_num) (by norm_num) hnc

/-- Evaluation of an integer-coefficient polynomial given by its
coefficient list (constant term first), by Horner's rule. -/
def polyEval (c : List Int) (x : Int) : Int :=
  c.foldr (fun a acc => a + x * acc) 0

/-- The same polynomial over `ℚ` (spec-side object only). -/
noncomputable def qPoly (c : List Int) : Polynomial ℚ :=
  c.foldr (fun (a : Int) q => Polynomial.C ((a : Int) : ℚ) + Polynomial.X * q) 0

/-- The shares obtained by evaluating the polynomial at `x = 1..n`. -/
def sharesFor (c : List Int) (n : Nat) : List Share :=
  (List.range n).map (fun (i : Nat) => ⟨(i : Int) + 1, polyEval c ((i : Int) + 1)⟩)

theorem polyEval_cons (a : Int) (c : List Int) (x : Int) :
    polyEval (a :: c) x = a + x * polyEval c x := rfl

theorem qPoly_cons (a : Int) (c : List Int) :
    qPoly (a :: c) = Polynomial.C ((a : Int) : ℚ) + Polynomial.X * qPoly c := rfl

theorem polyEval_cast (c : List Int) (x : Int) :
    ((polyEval c x : Int) : ℚ) = (qPoly c).eval (x : ℚ) := by
  induction c with
  | nil => simp [polyEval, qPoly]
  | cons a c ih =>
    rw [polyEval_cons, qPoly_cons, Polynomial.eval_add, Polynomial.eval_C,
      Polynomial.eval_mul, Polynomial.eval_X]
    push_cast
    rw [ih]

theorem qPoly_degree_lt (c : List Int) : (qPoly c).degree < (c.length : ℕ) := by
  induction c with
  | nil =>
    show (0 : Polynomial ℚ).degree < ((0 : ℕ) : WithBot ℕ)
    rw [Polynomial.degree_zero]
    exact WithBot.bot_lt_coe 0
  | cons a c ih =>
    rw [qPoly_cons]
    apply lt_of_le_of_lt (Polynomial.degree_add_le _ _)
    rw [List.length_cons, max_lt_iff]
    constructor
    · apply lt_of_le_of_lt Polynomial.degree_C_le
      exact_mod_cast Nat.succ_pos c.length
    · apply lt_of_le_of_lt (Polynomial.degree_mul_le _ _)
      apply lt_of_le_of_lt (add_le_add_right Polynomial.degree_X_le _)
      have h1 : (1 : WithBot ℕ) + (qPoly c).degree < 1 + (c.length : ℕ) :=
        WithBot.add_lt_add_left (by simp) ih
      apply lt_of_lt_of_le h1
      apply le_of_eq
      rw [Nat.cast_add_one, add_comm]

theorem qPoly_eval_zero (c : List Int) : (qPoly c).eval 0 = ((c.headD 0 : Int) : ℚ) := by
  cases c with
  | nil => simp [qPoly]
  | cons a c => rw [qPoly_cons]; simp

theorem sharesFor_length (c : List Int) (n : Nat) : (sharesFor c n).length = n := by
  unfold sharesFor
  rw [List.length_map, List.length_range]

theorem sharesFor_distinct (c : List Int) (n : Nat) : DistinctX (sharesFor c n) := by
  unfold DistinctX sharesFor
  rw [List.map_map]
  apply List.Nodup.map ?_ (List.nodup_range n)
  intro i j hij
  simp only [Function.comp_apply] at hij
  omega

theorem sharesFor_on_poly (c : List Int) (n : Nat) :
    ∀ p ∈ sharesFor c n, (qPoly c).eval (p.x : ℚ) = (p.y : ℚ) := by
  intro p hp
  unfold sharesFor at hp
  rw [List.mem_map] at hp
  obtain ⟨i, _, rfl⟩ := hp
  exact (polyEval_cast c ((i : Int) + 1)).symm

theorem subseqsLen_head {α : Type} : ∀ (k : Nat) (l : List α), k ≤ l.length →
    ∃ rest, subseqsLen k l = l.take k :: rest
  | 0, l, _ => ⟨[], by rw [List.take_zero]; cases l <;> rfl⟩
  | k + 1, [], h => by simp at h
  | k + 1, a :: l, h => by
    obtain ⟨r, hr⟩ := subseqsLen_head k l (by simpa using h)
    refine ⟨(r.map (fun t => a :: t)) ++ subseqsLen (k + 1) l, ?_⟩
    rw [subseqsLen, hr, List.map_cons, List.take_succ_cons, List.cons_append]

theorem filterMap_get_range_take {α : Type} (l : List α) :
    ∀ (k : Nat), k ≤ l.length → (List.range k).filterMap (fun i => l[i]?) = l.take k := by
  intro k
  induction k with
  | zero => intro _; rfl
  | succ k2 ih =>
    intro h
    rw [List.range_succ, List.filterMap_append, ih (by omega), List.take_succ]
    congr 1

theorem combinations_head (shares : List Share) (k : Nat) (hk : k ≤ shares.length) :
    ∃ rest, combinations shares k = shares.take k :: rest := by
  obtain ⟨r, hr⟩ := subseqsLen_head k (List.range shares.length) (by simpa using hk)
  unfold combinations
  rw [combinationsIdx_eq_subseqsLen, hr, List.take_range, Nat.min_eq_left hk, List.map_cons,
    filterMap_get_range_take shares k hk]
  exact ⟨_, rfl⟩

/-- C1 (amended with `2 ≤ k ≤ n`): on unmodified shares from an
integer polynomial with `k` coefficients at `x = 1..n`, `reconstruct`
succeeds with the exact constant term as secret, a perfect fit vector
and `fitCount = n`; the winning subset is the first one enumerated. -/
theorem C1_exactness (c : List Int) (k n : Nat) (hck : c.length = k)
    (h2 : 2 ≤ k) (hkn : k ≤ n) :
    reconstruct (sharesFor c n) (k : Int) =
      .ok ⟨⟨c.headD 0, 1⟩, (sharesFor c n).take k, List.replicate n true, (n : Int)⟩ := by
  have hlen : (sharesFor c n).length = n := sharesFor_length c n
  have hdx : DistinctX (sharesFor c n) := sharesFor_distinct c n
  have hkn' : k ≤ (sharesFor c n).length := by omega
  obtain ⟨rest, hcomb⟩ := combinations_head (sharesFor c n) k hkn'
  have hs0sub : ((sharesFor c n).take k).Sublist (sharesFor c n) := List.take_sublist _ _
  have hs0dx : DistinctX ((sharesFor c n).take k) := by
    unfold DistinctX at hdx ⊢
    exact hdx.sublist (hs0sub.map _)
  have hs0len : ((sharesFor c n).take k).length = k := by
    rw [List.length_take]
    omega
  have hq : ∀ xq : ℚ, qLagrange ((sharesFor c n).take k) xq = (qPoly c).eval xq := by
    apply qLagrange_of_on_poly hs0dx (qPoly c)
    · rw [hs0len, ← hck]
      exact qPoly_degree_lt c
    · intro q hqmem
      exact sharesFor_on_poly c n q (hs0sub.subset hqmem)
  have hfit : ∀ p ∈ sharesFor c n, fitB ((sharesFor c n).take k) p = true := by
    intro p hp
    rw [fitB_spec hs0dx, hq]
    exact sharesFor_on_poly c n p hp
  have hmap : (sharesFor c n).map (fitB ((sharesFor c n).take k)) = List.replicate n true := by
    refine List.eq_replicate.mpr ⟨by rw [List.length_map, hlen], ?_⟩
    intro b hb
    rw [List.mem_map] at hb
    obtain ⟨p, hp, rfl⟩ := hb
    exact hfit p hp
  obtain ⟨fr0, hlag, hcfr, hvfr⟩ := lagrangeAtZero_spec ((sharesFor c n).take k) hs0dx
  have hfr0 : fr0 = ⟨c.headD 0, 1⟩ := by
    apply canon_fracVal_inj hcfr canon_int
    rw [hvfr, hq 0, qPoly_eval_zero]
    unfold fracVal
    simp
  have hskip : ¬ ((((sharesFor c n).take k).map (fun t => t.x)).dedup.length ≠
      ((sharesFor c n).take k).length) := by
    rw [dedup_check_iff]
    exact not_not_intro hs0dx
  have hsearch : searchLoop (sharesFor c n) ((sharesFor c n).take k :: rest) cInit =
      .ok ⟨(n : Int), some ((sharesFor c n).take k), some fr0,
        some (List.replicate n true)⟩ := by
    rw [searchLoop, if_neg hskip, hlag, computeFits_spec hs0dx, hmap]
    have hc1 : cInit.fitCount < (((List.replicate n true).count true : Nat) : Int) := by
      show (-1 : Int) < _
      have : (0 : Int) ≤ (((List.replicate n true).count true : Nat) : Int) := by positivity
      omega
    have hc2 : (((List.replicate n true).count true : Nat) : Int) =
        ((sharesFor c n).length : Int) := by
      rw [List.count_replicate_self, hlen]
    simp only [if_pos hc1, if_pos hc2, List.count_replicate_self]
    rw [if_pos (show cInit.fitCount < ((n : Nat) : Int) from by
        show (-1 : Int) < ((n : Nat) : Int)
        omega),
      if_pos (show ((n : Nat) : Int) = ((sharesFor c n).length : Int) from by rw [hlen])]
  have hknat : ((k : Int)).toNat = k := Int.toNat_natCast k
  have hsearch2 : searchLoop (sharesFor c n) (combinations (sharesFor c n) ((k : Int)).toNat)
      cInit = .ok ⟨(n : Int), some ((sharesFor c n).take k), some fr0,
        some (List.replicate n true)⟩ := by
    rw [hknat, hcomb]
    exact hsearch
  rw [reconstruct_conclude (by exact_mod_cast not_lt.mpr (by omega : (2 : Int) ≤ k))
    (by rw [hlen]; exact_mod_cast not_lt.mpr (by exact_mod_cast hkn)) _ hsearch2]
  rw [hfr0]

/-- Counterexample to C1 as frozen: with the degree-`k−1 = 0`
polynomial `[5]` at `x = 1..2` and `k = 1`, the claim asserts success,
but `reconstruct` fails with `InvalidThreshold`. -/
theorem C1_counterexample :
    sharesFor [5] 2 = [⟨1, 5⟩, ⟨2, 5⟩] ∧
    reconstruct (sharesFor [5] 2) ((1 : Nat) : Int) = .error .invalidThreshold :=
  ⟨rfl, rfl⟩

/-- Witness for C1 on `f(x) = 3x + 5`, `n = 3`, `k = 2`. -/
theorem C1_witness :
    ([5, 3] : List Int).length = 2 ∧ 2 ≤ 2 ∧ 2 ≤ 3 ∧
    reconstruct (sharesFor [5, 3] 3) ((2 : Nat) : Int) =
      .ok ⟨⟨5, 1⟩, (sharesFor [5, 3] 3).take 2, List.replicate 3 true, ((3 : Nat) : Int)⟩ :=
  ⟨rfl, le_rfl, by omega, C1_exactness [5, 3] 2 3 rfl (by omega) (by omega)⟩

theorem qPoly_f_eval (xq : ℚ) :
    (qPoly [5, -3, 2]).eval xq = 5 - 3 * xq + 2 * xq ^ 2 := by
  rw [qPoly_cons, qPoly_cons, qPoly_cons]
  show Polynomial.eval xq
    (Polynomial.C ((5 : Int) : ℚ) + Polynomial.X *
      (Polynomial.C ((-3 : Int) : ℚ) + Polynomial.X *
        (Polynomial.C ((2 : Int) : ℚ) + Polynomial.X * 0))) = 5 - 3 * xq + 2 * xq ^ 2
  simp only [Polynomial.eval_add, Polynomial.eval_mul, Polynomial.eval_C, Polynomial.eval_X,
    Polynomial.eval_zero]
  push_cast
  ring

/-- No subset containing the corrupted share `(4, y2)` can fit all of
the three honest shares of `f(x) = 2x² − 3x + 5`. -/
theorem C2_no_perfect_fit (y2 : Int) (hy : y2 ≠ 25) (subi : List Share)
    (hdx : DistinctX subi) (hlen : subi.length = 3) (hnode4 : (⟨4, y2⟩ : Share) ∈ subi)
    (hq1 : qLagrange subi 1 = 4) (hq2 : qLagrange subi 2 = 7)
    (hq3 : qLagrange subi 3 = 14) : False := by
  obtain ⟨q, hdeg, hqe⟩ := qLagrange_is_poly subi hdx
  rw [hlen] at hdeg
  have hPdeg : (qPoly [5, -3, 2]).degree < ((3 : Nat) : ℕ) := qPoly_degree_lt [5, -3, 2]
  have hcard : (({1, 2, 3} : Finset ℚ)).card = 3 := by decide
  have hagree : ∀ x ∈ ({1, 2, 3} : Finset ℚ), q.eval x = (qPoly [5, -3, 2]).eval x := by
    intro x hx
    rw [Finset.mem_insert, Finset.mem_insert, Finset.mem_singleton] at hx
    rcases hx with rfl | rfl | rfl
    · rw [← hqe 1, hq1, qPoly_f_eval]
      norm_num
    · rw [← hqe 2, hq2, qPoly_f_eval]
      norm_num
    · rw [← hqe 3, hq3, qPoly_f_eval]
      norm_num
  have hQP : q = qPoly [5, -3, 2] := by
    apply Polynomial.eq_of_degrees_lt_of_eval_finset_eq ({1, 2, 3} : Finset ℚ)
    · rw [hcard]
      exact_mod_cast hdeg
    · rw [hcard]
      exact_mod_cast hPdeg
    · exact hagree
  have h4 : qLagrange subi 4 = (y2 : ℚ) := by
    have := qLagrange_at_mem hdx hnode4
    push_cast at this
    exact this
  rw [hqe 4, hQP, qPoly_f_eval] at h4
  norm_num at h4
  exact hy (by exact_mod_cast h4.symm)

theorem searchLoop_no_improve (shares sub : List Share) (rest : List (List Share))
    (best : Candidate) (hdx : DistinctX sub)
    (hno : ¬ (best.fitCount < (((shares.map (fitB sub)).count true : Nat) : Int))) :
    searchLoop shares (sub :: rest) best = searchLoop shares rest best := by
  have hskip : ¬ ((sub.map (fun t => t.x)).dedup.length ≠ sub.length) := by
    rw [dedup_check_iff]
    exact not_not_intro hdx
  obtain ⟨fr, hlag, _, _⟩ := lagrangeAtZero_spec sub hdx
  rw [searchLoop, if_neg hskip, hlag, computeFits_spec hdx]
  simp only [if_neg hno]

theorem searchLoop_improve_continue (shares sub : List Share) (rest : List (List Share))
    (best : Candidate) (hdx : DistinctX sub) (fr : Fraction)
    (hlag : lagrangeAtZero sub = .ok fr)
    (hlt : best.fitCount < (((shares.map (fitB sub)).count true : Nat) : Int))
    (hne : (((shares.map (fitB sub)).count true : Nat) : Int) ≠ (shares.length : Int)) :
    searchLoop shares (sub :: rest) best =
      searchLoop shares rest ⟨(((shares.map (fitB sub)).count true : Nat) : Int),
        some sub, some fr, some (shares.map (fitB sub))⟩ := by
  have hskip : ¬ ((sub.map (fun t => t.x)).dedup.length ≠ sub.length) := by
    rw [dedup_check_iff]
    exact not_not_intro hdx
  rw [searchLoop, if_neg hskip, hlag, computeFits_spec hdx]
  simp only [if_pos hlt, if_neg hne]

/-- C2: with `n = 4, k = 3` shares of `f(x) = 2x² − 3x + 5` at
`x = 1..4` and the share at `x = 4` replaced by any inconsistent `y`,
`reconstruct` reports `fitCount = 3`, marks exactly the altered share
as bad, and returns secret `5`. -/
theorem C2_corruption_tolerance (y2 : Int) (hy : y2 ≠ 25) :
    reconstruct [⟨1, 4⟩, ⟨2, 7⟩, ⟨3, 14⟩, ⟨4, y2⟩] 3 =
      .ok ⟨⟨5, 1⟩, [⟨1, 4⟩, ⟨2, 7⟩, ⟨3, 14⟩], [true, true, true, false], 3⟩ := by
  have hdx1 : DistinctX [⟨1, 4⟩, ⟨2, 7⟩, ⟨3, 14⟩] := by decide
  have hdx2 : DistinctX [⟨1, 4⟩, ⟨2, 7⟩, ⟨4, y2⟩] := by
    unfold DistinctX
    simp
  have hdx3 : DistinctX [⟨1, 4⟩, ⟨3, 14⟩, ⟨4, y2⟩] := by
    unfold DistinctX
    simp
  have hdx4 : DistinctX [⟨2, 7⟩, ⟨3, 14⟩, ⟨4, y2⟩] := by
    unfold DistinctX
    simp
  have hq25 : qLagrange [⟨1, 4⟩, ⟨2, 7⟩, ⟨3, 14⟩] 4 = 25 := by
    have hon : ∀ p ∈ ([⟨1, 4⟩, ⟨2, 7⟩, ⟨3, 14⟩] : List Share),
        (qPoly [5, -3, 2]).eval ((p.x : Int) : ℚ) = ((p.y : Int) : ℚ) := by
      intro p hp
      simp only [List.mem_cons, List.not_mem_nil, or_false] at hp
      rcases hp with rfl | rfl | rfl <;> (rw [qPoly_f_eval]; norm_num)
    rw [qLagrange_of_on_poly hdx1 (qPoly [5, -3, 2])
      (by exact_mod_cast qPoly_degree_lt [5, -3, 2]) hon 4, qPoly_f_eval]
    norm_num
  have hfitB14 : fitB [⟨1, 4⟩, ⟨2, 7⟩, ⟨3, 14⟩] (⟨4, y2⟩ : Share) = false := by
    rw [Bool.eq_false_iff]
    intro htrue
    have h25 : qLagrange [⟨1, 4⟩, ⟨2, 7⟩, ⟨3, 14⟩] (((4 : Int)) : ℚ) = ((y2 : Int) : ℚ) :=
      (fitB_spec hdx1 ⟨4, y2⟩).mp htrue
    rw [show (((4 : Int)) : ℚ) = (4 : ℚ) by norm_num, hq25] at h25
    exact hy (by exact_mod_cast h25.symm)
  have hmap1 : [⟨1, 4⟩, ⟨2, 7⟩, ⟨3, 14⟩, ⟨4, y2⟩].map (fitB [⟨1, 4⟩, ⟨2, 7⟩, ⟨3, 14⟩]) =
      [true, true, true, false] := by
    simp only [List.map_cons, List.map_nil]
    rw [hfitB14]
    rfl
  have hlag1 : lagrangeAtZero [⟨1, 4⟩, ⟨2, 7⟩, ⟨3, 14⟩] = .ok ⟨5, 1⟩ := rfl
  have hcnt1 : ((([⟨1, 4⟩, ⟨2, 7⟩, ⟨3, 14⟩, ⟨4, y2⟩].map
      (fitB [⟨1, 4⟩, ⟨2, 7⟩, ⟨3, 14⟩])).count true : Nat) : Int) = 3 := by
    rw [hmap1]
    rfl
  have hno2 : ¬ ((3 : Int) < ((([⟨1, 4⟩, ⟨2, 7⟩, ⟨3, 14⟩, ⟨4, y2⟩].map
      (fitB [⟨1, 4⟩, ⟨2, 7⟩, ⟨4, y2⟩])).count true : Nat) : Int)) := by
    intro hlt
    have hle : ([⟨1, 4⟩, ⟨2, 7⟩, ⟨3, 14⟩, ⟨4, y2⟩].map
        (fitB [⟨1, 4⟩, ⟨2, 7⟩, ⟨4, y2⟩])).count true ≤ 4 := by
      apply le_trans (List.count_le_length _ _)
      simp
    have heq : ([⟨1, 4⟩, ⟨2, 7⟩, ⟨3, 14⟩, ⟨4, y2⟩].map
        (fitB [⟨1, 4⟩, ⟨2, 7⟩, ⟨4, y2⟩])).count true = 4 := by omega
    rw [count_true_map] at heq
    have hall : ∀ p ∈ [⟨1, 4⟩, ⟨2, 7⟩, ⟨3, 14⟩, ⟨4, y2⟩],
        fitB [⟨1, 4⟩, ⟨2, 7⟩, ⟨4, y2⟩] p = true := by
      apply List.countP_eq_length.mp
      rw [heq]
      rfl
    have h1 : qLagrange [⟨1, 4⟩, ⟨2, 7⟩, ⟨4, y2⟩] 1 = 4 := by
      have := qLagrange_at_mem hdx2 (show (⟨1, 4⟩ : Share) ∈ _ by simp)
      simpa using this
    have h2 : qLagrange [⟨1, 4⟩, ⟨2, 7⟩, ⟨4, y2⟩] 2 = 7 := by
      have := qLagrange_at_mem hdx2 (show (⟨2, 7⟩ : Share) ∈ _ by simp)
      simpa using this
    have h3 : qLagrange [⟨1, 4⟩, ⟨2, 7⟩, ⟨4, y2⟩] 3 = 14 := by
      have := (fitB_spec hdx2 ⟨3, 14⟩).mp (hall ⟨3, 14⟩ (by simp))
      simpa using this
    exact C2_no_perfect_fit y2 hy _ hdx2 rfl (by simp) h1 h2 h3
  have hno3 : ¬ ((3 : Int) < ((([⟨1, 4⟩, ⟨2, 7⟩, ⟨3, 14⟩, ⟨4, y2⟩].map
      (fitB [⟨1, 4⟩, ⟨3, 14⟩, ⟨4, y2⟩])).count true : Nat) : Int)) := by
    intro hlt
    have hle : ([⟨1, 4⟩, ⟨2, 7⟩, ⟨3, 14⟩, ⟨4, y2⟩].map
        (fitB [⟨1, 4⟩, ⟨3, 14⟩, ⟨4, y2⟩])).count true ≤ 4 := by
      apply le_trans (List.count_le_length _ _)
      simp
    have heq : ([⟨1, 4⟩, ⟨2, 7⟩, ⟨3, 14⟩, ⟨4, y2⟩].map
        (fitB [⟨1, 4⟩, ⟨3, 14⟩, ⟨4, y2⟩])).count true = 4 := by omega
    rw [count_true_map] at heq
    have hall : ∀ p ∈ [⟨1, 4⟩, ⟨2, 7⟩, ⟨3, 14⟩, ⟨4, y2⟩],
        fitB [⟨1, 4⟩, ⟨3, 14⟩, ⟨4, y2⟩] p = true := by
      apply List.countP_eq_length.mp
      rw [heq]
      rfl
    have h1 : qLagrange [⟨1, 4⟩, ⟨3, 14⟩, ⟨4, y2⟩] 1 = 4 := by
      have := qLagrange_at_mem hdx3 (show (⟨1, 4⟩ : Share) ∈ _ by simp)
      simpa using this
    have h3 : qLagrange [⟨1, 4⟩, ⟨3, 14⟩, ⟨4, y2⟩] 3 = 14 := by
      have := qLagrange_at_mem hdx3 (show (⟨3, 14⟩ : Share) ∈ _ by simp)
      simpa using this
    have h2 : qLagrange [⟨1, 4⟩, ⟨3, 14⟩, ⟨4, y2⟩] 2 = 7 := by
      have := (fitB_spec hdx3 ⟨2, 7⟩).mp (hall ⟨2, 7⟩ (by simp))
      simpa using this
    exact C2_no_perfect_fit y2 hy _ hdx3 rfl (by simp) h1 h2 h3
  have hno4 : ¬ ((3 : Int) < ((([⟨1, 4⟩, ⟨2, 7⟩, ⟨3, 14⟩, ⟨4, y2⟩].map
      (fitB [⟨2, 7⟩, ⟨3, 14⟩, ⟨4, y2⟩])).count true : Nat) : Int)) := by
    intro hlt
    have hle : ([⟨1, 4⟩, ⟨2, 7⟩, ⟨3, 14⟩, ⟨4, y2⟩].map
        (fitB [⟨2, 7⟩, ⟨3, 14⟩, ⟨4, y2⟩])).count true ≤ 4 := by
      apply le_trans (List.count_le_length _ _)
      simp
    have heq : ([⟨1, 4⟩, ⟨2, 7⟩, ⟨3, 14⟩, ⟨4, y2⟩].map
        (fitB [⟨2, 7⟩, ⟨3, 14⟩, ⟨4, y2⟩])).count true = 4 := by omega
    rw [count_true_map] at heq
    have hall : ∀ p ∈ [⟨1, 4⟩, ⟨2, 7⟩, ⟨3, 14⟩, ⟨4, y2⟩],
        fitB [⟨2, 7⟩, ⟨3, 14⟩, ⟨4, y2⟩] p = true := by
      apply List.countP_eq_length.mp
      rw [heq]
      rfl
    have h2 : qLagrange [⟨2, 7⟩, ⟨3, 14⟩, ⟨4, y2⟩] 2 = 7 := by
      have := qLagrange_at_mem hdx4 (show (⟨2, 7⟩ : Share) ∈ _ by simp)
      simpa using this
    have h3 : qLagrange [⟨2, 7⟩, ⟨3, 14⟩, ⟨4, y2⟩] 3 = 14 := by
      have := qLagrange_at_mem hdx4 (show (⟨3, 14⟩ : Share) ∈ _ by simp)
      simpa using this
    have h1 : qLagrange [⟨2, 7⟩, ⟨3, 14⟩, ⟨4, y2⟩] 1 = 4 := by
      have := (fitB_spec hdx4 ⟨1, 4⟩).mp (hall ⟨1, 4⟩ (by simp))
      simpa using this
    exact C2_no_perfect_fit y2 hy _ hdx4 rfl (by simp) h1 h2 h3
  have hsearch : searchLoop [⟨1, 4⟩, ⟨2, 7⟩, ⟨3, 14⟩, ⟨4, y2⟩]
      (combinations [⟨1, 4⟩, ⟨2, 7⟩, ⟨3, 14⟩, ⟨4, y2⟩] ((3 : Int)).toNat) cInit =
      .ok ⟨3, some [⟨1, 4⟩, ⟨2, 7⟩, ⟨3, 14⟩], some ⟨5, 1⟩,
        some [true, true, true, false]⟩ := by
    rw [show combinations ([⟨1, 4⟩, ⟨2, 7⟩, ⟨3, 14⟩, ⟨4, y2⟩] : List Share) ((3 : Int)).toNat =
      ([[⟨1, 4⟩, ⟨2, 7⟩, ⟨3, 14⟩], [⟨1, 4⟩, ⟨2, 7⟩, ⟨4, y2⟩],
        [⟨1, 4⟩, ⟨3, 14⟩, ⟨4, y2⟩], [⟨2, 7⟩, ⟨3, 14⟩, ⟨4, y2⟩]] : List (List Share)) from rfl]
    rw [searchLoop_improve_continue _ _ _ _ hdx1 ⟨5, 1⟩ hlag1
      (by rw [hcnt1]; show (-1 : Int) < 3; norm_num)
      (by rw [hcnt1]; show (3 : Int) ≠ ((4 : Nat) : Int); norm_num)]
    rw [show (⟨((([⟨1, 4⟩, ⟨2, 7⟩, ⟨3, 14⟩, ⟨4, y2⟩].map
        (fitB [⟨1, 4⟩, ⟨2, 7⟩, ⟨3, 14⟩])).count true : Nat) : Int),
        some [⟨1, 4⟩, ⟨2, 7⟩, ⟨3, 14⟩], some ⟨5, 1⟩,
        some ([⟨1, 4⟩, ⟨2, 7⟩, ⟨3, 14⟩, ⟨4, y2⟩].map
          (fitB [⟨1, 4⟩, ⟨2, 7⟩, ⟨3, 14⟩]))⟩ : Candidate) =
      ⟨3, some [⟨1, 4⟩, ⟨2, 7⟩, ⟨3, 14⟩], some ⟨5, 1⟩,
        some [true, true, true, false]⟩ by rw [hcnt1, hmap1]]
    rw [searchLoop_no_improve _ _ _ _ hdx2 hno2]
    rw [searchLoop_no_improve _ _ _ _ hdx3 hno3]
    rw [searchLoop_no_improve _ _ _ _ hdx4 hno4]
    rfl
  rw [reconstruct_conclude (by norm_num) (by norm_num) _ hsearch]

/-- Witness for C2 at the concrete corrupted value `y = 0`. -/
theorem C2_witness :
    (0 : Int) ≠ 25 ∧
    reconstruct [⟨1, 4⟩, ⟨2, 7⟩, ⟨3, 14⟩, ⟨4, 0⟩] 3 =
      .ok ⟨⟨5, 1⟩, [⟨1, 4⟩, ⟨2, 7⟩, ⟨3, 14⟩], [true, true, true, false], 3⟩ :=
  ⟨by decide, C2_corruption_tolerance 0 (by decide)⟩

/-! ### Input parsing (`charToVal`, `parseInBase`, `parseInput`)

The JSON decoding itself is assumed done; an input is modelled as the
ordered list of top-level (key, entry) pairs, each entry carrying the
`base` and `value` strings.  `parseInt(entry.base, 10)` is modelled by
`jsParseInt10` (returning `none` for NaN, which `BigInt` then rejects),
and the numeric-key test `/^\d+$/` by `isNumericKey`.  `Array#sort`
with the x comparator is stable, modelled by insertion sort. -/

structure RawShare where
  base : String
  value : String
deriving Repr, DecidableEq

def trimChars (l : List Char) : List Char :=
  ((l.dropWhile Char.isWhitespace).reverse.dropWhile Char.isWhitespace).reverse

def charToVal (ch : Char) : Except String Int :=
  let c := ch.toLower
  if '0' ≤ c ∧ c ≤ '9' then .ok ((c.toNat : Int) - 48)
  else if 'a' ≤ c ∧ c ≤ 'z' then .ok ((c.toNat : Int) - 97 + 10)
  else .error "Unsupported digit"

def parseInBaseLoop (B : Int) : List Char → Int → Except String Int
  | [], v => .ok v
  | ch :: rest, v =>
    if ch = '_' ∨ ch = ' ' then parseInBaseLoop B rest v
    else
      match charToVal ch with
      | .error e => .error e
      | .ok d =>
        if B ≤ d then .error "Digit invalid for base"
        else parseInBaseLoop B rest (v * B + d)

def parseInBase (str : String) (base : Option Int) : Except String Int :=
  match base with
  | none => .error "Cannot convert NaN to a BigInt"
  | some b =>
    if b < 2 ∨ 36 < b then .error "Unsupported base"
    else parseInBaseLoop b (trimChars str.data) 0

def jsParseInt10 (s : String) : Option Int :=
  let t := trimChars s.data
  let signed : Int × List Char :=
    match t with
    | '-' :: r => (-1, r)
    | '+' :: r => (1, r)
    | r => (1, r)
  let digits := signed.2.takeWhile Char.isDigit
  if digits.isEmpty then none
  else some (signed.1 * digits.foldl (fun acc c => acc * 10 + ((c.toNat : Int) - 48)) 0)

def decVal (s : String) : Int :=
  s.data.foldl (fun acc c => acc * 10 + ((c.toNat : Int) - 48)) 0

def isNumericKey (s : String) : Bool :=
  !s.isEmpty && s.data.all Char.isDigit

def parseShares : List (String × RawShare) → Except String (List Share)
  | [] => .ok []
  | (key, entry) :: rest =>
    if key = "keys" then parseShares rest
    else if isNumericKey key = false then parseShares rest
    else
      match parseInBase entry.value (jsParseInt10 entry.base) with
      | .error e => .error e
      | .ok y =>
        match parseShares rest with
        | .error e => .error e
        | .ok tail => .ok (⟨decVal key, y⟩ :: tail)

def insertShare (p : Share) : List Share → List Share
  | [] => [p]
  | q :: rest => if q.x ≤ p.x then q :: insertShare p rest else p :: q :: rest

def sortShares (l : List Share) : List Share :=
  l.foldl (fun acc p => insertShare p acc) []

def parseInput (entries : List (String × RawShare)) : Except String (List Share) :=
  match parseShares entries with
  | .error e => .error e
  | .ok shares => .ok (sortShares shares)

theorem insertShare_perm (p : Share) (l : List Share) :
    (insertShare p l).Perm (p :: l) := by
  induction l with
  | nil => exact List.Perm.refl _
  | cons q rest ih =>
    unfold insertShare
    by_cases h : q.x ≤ p.x
    · rw [if_pos h]
      exact (ih.cons q).trans (List.Perm.swap p q rest)
    · rw [if_neg h]

theorem sortShares_perm (l : List Share) : (sortShares l).Perm l := by
  suffices h : ∀ acc : List Share,
      (l.foldl (fun acc p => insertShare p acc) acc).Perm (l ++ acc) by
    simpa using h []
  induction l with
  | nil => intro acc; exact List.Perm.refl _
  | cons p rest ih =>
    intro acc
    rw [List.foldl_cons]
    refine (ih (insertShare p acc)).trans ?_
    refine (List.Perm.append_left rest (insertShare_perm p acc)).trans ?_
    exact List.perm_middle

theorem parseShares_mem (entries : List (String × RawShare)) (raw : List Share)
    (hok : parseShares entries = .ok raw) :
    ∀ p ∈ raw, ∃ e ∈ entries, isNumericKey e.1 = true ∧ p.x = decVal e.1 := by
  induction entries generalizing raw with
  | nil =>
    cases hok
    intro p hp
    simp at hp
  | cons e rest ih =>
    obtain ⟨key, entry⟩ := e
    unfold parseShares at hok
    by_cases hkeys : key = "keys"
    · rw [if_pos hkeys] at hok
      intro p hp
      obtain ⟨e2, he2, hnum, hx⟩ := ih raw hok p hp
      exact ⟨e2, List.mem_cons_of_mem _ he2, hnum, hx⟩
    rw [if_neg hkeys] at hok
    by_cases hnum : isNumericKey key = false
    · rw [if_pos hnum] at hok
      intro p hp
      obtain ⟨e2, he2, hnum2, hx⟩ := ih raw hok p hp
      exact ⟨e2, List.mem_cons_of_mem _ he2, hnum2, hx⟩
    rw [if_neg hnum] at hok
    cases hy : parseInBase entry.value (jsParseInt10 entry.base) with
    | error msg => rw [hy] at hok; cases hok
    | ok y =>
      rw [hy] at hok
      cases htail : parseShares rest with
      | error msg => rw [htail] at hok; cases hok
      | ok tail =>
        rw [htail] at hok
        cases hok
        intro p hp
        rcases List.mem_cons.mp hp with rfl | hp2
        · exact ⟨(key, entry), List.mem_cons_self _ _,
            Bool.eq_true_of_ne_false hnum, rfl⟩
        · obtain ⟨e2, he2, hnum2, hx⟩ := ih tail htail p hp2
          exact ⟨e2, List.mem_cons_of_mem _ he2, hnum2, hx⟩

/-- C10 (amended): every share produced by the input parser takes its
`x` value from a numeric top-level key; and whenever the parsed `x`
values are in fact pairwise distinct and `2 ≤ k ≤` number of shares,
reconstruction returns a result, so the `ReconstructionFailed` branch
is not reached.  (Distinct keys alone do not guarantee distinct `x`:
see the counterexample with keys "7" and "07".) -/
theorem C10_parsed_reconstruct (entries : List (String × RawShare)) (l : List Share)
    (k : Int) (hok : parseInput entries = .ok l) :
    (∀ p ∈ l, ∃ e ∈ entries, isNumericKey e.1 = true ∧ p.x = decVal e.1) ∧
    (DistinctX l → 2 ≤ k → k ≤ (l.length : Int) → ∃ r, reconstruct l k = .ok r) := by
  unfold parseInput at hok
  cases hps : parseShares entries with
  | error msg => rw [hps] at hok; cases hok
  | ok raw =>
    rw [hps] at hok
    cases hok
    constructor
    · intro p hp
      exact parseShares_mem entries raw hps p ((sortShares_perm raw).mem_iff.mp hp)
    · intro hdx h2 hk
      apply reconstruct_total h2 hk
      have hkn : k.toNat ≤ (sortShares raw).length := by omega
      obtain ⟨rest, hcomb⟩ := combinations_head (sortShares raw) k.toNat hkn
      refine ⟨(sortShares raw).take k.toNat, ?_, ?_⟩
      · rw [hcomb]; exact List.mem_cons_self _ _
      · exact List.Nodup.sublist ((List.take_sublist _ _).map _) hdx

/-- C10 witness at concrete well-formed input with keys "1" and "2",
both in base 10. -/
theorem C10_witness :
    parseInput [("1", ⟨"10", "4"⟩), ("2", ⟨"10", "7"⟩)] = .ok [⟨1, 4⟩, ⟨2, 7⟩] ∧
    ((∀ p ∈ [(⟨1, 4⟩ : Share), ⟨2, 7⟩],
        ∃ e ∈ [("1", (⟨"10", "4"⟩ : RawShare)), ("2", ⟨"10", "7"⟩)],
          isNumericKey e.1 = true ∧ p.x = decVal e.1) ∧
      (DistinctX [(⟨1, 4⟩ : Share), ⟨2, 7⟩] → 2 ≤ (2 : Int) →
        (2 : Int) ≤ (([(⟨1, 4⟩ : Share), ⟨2, 7⟩]).length : Int) →
        ∃ r, reconstruct [(⟨1, 4⟩ : Share), ⟨2, 7⟩] 2 = .ok r)) :=
  ⟨rfl, C10_parsed_reconstruct [("1", ⟨"10", "4"⟩), ("2", ⟨"10", "7"⟩)] [⟨1, 4⟩, ⟨2, 7⟩] 2 rfl⟩

/-- C10 counterexample: the distinct JSON keys "7" and "07" are both
numeric and both yield `x = 7`, so the parser can output shares with
duplicate `x` values without error, and `reconstruct` on that output
with `k = 2` does reach `ReconstructionFailed`. -/
theorem C10_counterexample :
    parseInput [("keys", ⟨"", ""⟩), ("7", ⟨"10", "4"⟩), ("07", ⟨"10", "25"⟩)] =
      .ok [⟨7, 4⟩, ⟨7, 25⟩] ∧
    ¬ DistinctX [(⟨7, 4⟩ : Share), ⟨7, 25⟩] ∧
    reconstruct [⟨7, 4⟩, ⟨7, 25⟩] 2 = .error .reconstructionFailed := by
  refine ⟨rfl, by decide, rfl⟩
